import Mathlib

/-!
Verification of the text-extraction and fact-parsing core of the
Zilla Parishad quasi-judicial drafting tool (`src/app.py`).

The Python source is shallowly embedded here.  Text is modelled as
`List Char` (Python `str` is a sequence of Unicode code points), byte
buffers as `List Nat` (each entry one byte).  Python regular expressions
are embedded through a small backtracking engine (`RE`, `run`) whose
alternation / greedy-quantifier order follows CPython's `re` module;
each pattern of the source is transcribed as an `RE` value.  The Unicode
character classes `\w`, `\d`, `\s` and `str.isspace` are modelled on the
repertoire the application works with (ASCII plus the Devanagari block
plus common whitespace); `[A-Z]`, `[6-9]`, `[A-Za-z]` are ASCII in
Python and are modelled exactly.
-/

/-- Python `\d` (decimal digit) restricted to the ASCII and Devanagari
digits, the repertoire relevant to this application. -/
def pyDigit (c : Char) : Bool :=
  (('0' ≤ c) && (c ≤ '9')) || ((0x966 ≤ c.toNat) && (c.toNat ≤ 0x96F))

/-- Whitespace as recognised by Python `str.isspace`, `str.strip()` and the
regex class `\s` (ASCII whitespace, NEL, and the common Unicode spaces). -/
def pySpace (c : Char) : Bool :=
  (c = ' ') || (c = '\t') || (c = '\n') || (c = '\r') ||
  (c.toNat = 0x0B) || (c.toNat = 0x0C) ||
  (c.toNat = 0x1C) || (c.toNat = 0x1D) || (c.toNat = 0x1E) || (c.toNat = 0x1F) ||
  (c.toNat = 0x85) || (c.toNat = 0xA0) || (c.toNat = 0x1680) ||
  ((0x2000 ≤ c.toNat) && (c.toNat ≤ 0x200A)) ||
  (c.toNat = 0x2028) || (c.toNat = 0x2029) || (c.toNat = 0x202F) ||
  (c.toNat = 0x205F) || (c.toNat = 0x3000)

/-- Python `\w` (word character) on the repertoire of the application:
ASCII alphanumerics, underscore, and the Devanagari block (letters,
signs and digits U+0900–U+097F). -/
def pyWord (c : Char) : Bool :=
  (('a' ≤ c) && (c ≤ 'z')) || (('A' ≤ c) && (c ≤ 'Z')) ||
  (('0' ≤ c) && (c ≤ '9')) || (c = '_') ||
  ((0x900 ≤ c.toNat) && (c.toNat ≤ 0x97F))

/-- Word-ness of the first character of a string; `false` at the end of the
string (used for `\b` boundary tests). -/
def wnHead : List Char → Bool
  | [] => false
  | c :: _ => pyWord c

/-- Word-ness of the character preceding the current scan position, given
the characters just consumed (`pw` if nothing was consumed). -/
def wnLast (pw : Bool) : List Char → Bool
  | [] => pw
  | [c] => pyWord c
  | _ :: t => wnLast pw t

/-- Python `str.strip()` (strip whitespace from both ends). -/
def pyStrip (l : List Char) : List Char :=
  ((l.dropWhile pySpace).reverse.dropWhile pySpace).reverse

/-- Python `str.strip(chars)` with an explicit character set. -/
def pyStripChars (set : List Char) (l : List Char) : List Char :=
  ((l.dropWhile (set.contains ·)).reverse.dropWhile (set.contains ·)).reverse

/-- Line-break characters recognised by Python `str.splitlines`. -/
def isLineBreak (c : Char) : Bool :=
  (c = '\n') || (c = '\r') ||
  (c.toNat = 0x0B) || (c.toNat = 0x0C) ||
  (c.toNat = 0x1C) || (c.toNat = 0x1D) || (c.toNat = 0x1E) ||
  (c.toNat = 0x85) || (c.toNat = 0x2028) || (c.toNat = 0x2029)

/-- Worker for `splitlines`: accumulates the current line (reversed). -/
def splitlinesAux : List Char → List Char → List (List Char)
  | acc, [] => [acc.reverse]
  | acc, '\r' :: '\n' :: t =>
    acc.reverse :: (match t with | [] => [] | _ :: _ => splitlinesAux [] t)
  | acc, c :: t =>
    if isLineBreak c then
      acc.reverse :: (match t with | [] => [] | _ :: _ => splitlinesAux [] t)
    else splitlinesAux (c :: acc) t

/-- Python `str.splitlines()`: split at line boundaries (`\r\n` counts as a
single boundary), no trailing empty line for a terminal break, and the
empty string yields no lines. -/
def splitlines : List Char → List (List Char)
  | [] => []
  | l => splitlinesAux [] l

/-- Python `"\n".join(...)` over a list of strings. -/
def joinNL : List (List Char) → List Char
  | [] => []
  | [x] => x
  | x :: xs => x ++ '\n' :: joinNL xs

/-- Python substring containment `needle in haystack` (`needle` nonempty
occurs contiguously). -/
def startsWith : List Char → List Char → Bool
  | [], _ => true
  | _ :: _, [] => false
  | a :: as, b :: bs => (a = b) && startsWith as bs

/-- Substring test (Python `in` on `str`). -/
def containsSub (needle : List Char) : List Char → Bool
  | [] => startsWith needle []
  | c :: t => startsWith needle (c :: t) || containsSub needle t

/-- Fuel-driven worker for `pyReplace` (structural recursion so that the
kernel can evaluate it; the fuel strictly exceeds the input length at
every call, so it never runs out). -/
def pyReplaceF (old new : List Char) : Nat → List Char → List Char
  | 0, l => l
  | _ + 1, [] => []
  | fuel + 1, c :: t =>
    if startsWith old (c :: t) then
      new ++ pyReplaceF old new fuel (t.drop (old.length - 1))
    else
      c :: pyReplaceF old new fuel t

/-- Python `str.replace(old, new)`: replace every non-overlapping
occurrence, scanning left to right (`old` nonempty in all uses here). -/
def pyReplace (old new : List Char) (l : List Char) : List Char :=
  pyReplaceF old new (l.length + 1) l

/-- Split at the first occurrence of `sep` and keep the part after it;
the whole string when `sep` does not occur (`text.split(sep, 1)[-1]`). -/
def splitAfterFirst (sep : List Char) : List Char → List Char
  | [] => []
  | c :: t =>
    if startsWith sep (c :: t) then (c :: t).drop sep.length
    else splitAfterFirst sep t

/-- Split at the first occurrence of `sep` and keep the part before it;
the whole string when `sep` does not occur (`text.split(sep, 1)[0]`). -/
def splitBeforeFirst (sep : List Char) : List Char → List Char
  | [] => []
  | c :: t =>
    if startsWith sep (c :: t) then []
    else c :: splitBeforeFirst sep t

/-! ### `read_txt` — the Text Reader (src/app.py lines 134–138)

Byte buffers are `List Nat` (entries `< 256`).  The decoders model the
CPython codecs in strict mode: `utf-8` forbids overlong forms,
surrogates and values beyond U+10FFFF; `utf-8-sig` strips one BOM;
`utf-16` consumes a BOM when present and is otherwise little-endian (the
machine byte order); `utf-16-le` / `utf-16-be` never consume a BOM.
`latin-1` never fails and maps each byte to the code point of the same
value. -/

/-- Strict UTF-8 decoding; `none` on any malformed sequence. -/
def utf8Dec : List Nat → Option (List Char)
  | [] => some []
  | b :: t =>
    if b < 0x80 then (utf8Dec t).map (Char.ofNat b :: ·)
    else if b < 0xC2 then none
    else if b < 0xE0 then
      match t with
      | b2 :: t2 =>
        if (0x80 ≤ b2) && (b2 < 0xC0) then
          (utf8Dec t2).map (Char.ofNat ((b - 0xC0) * 64 + (b2 - 0x80)) :: ·)
        else none
      | [] => none
    else if b < 0xF0 then
      match t with
      | b2 :: b3 :: t3 =>
        if ((if b = 0xE0 then 0xA0 else 0x80) ≤ b2) &&
           (b2 ≤ (if b = 0xED then 0x9F else 0xBF)) &&
           (0x80 ≤ b3) && (b3 < 0xC0) then
          (utf8Dec t3).map
            (Char.ofNat ((b - 0xE0) * 4096 + (b2 - 0x80) * 64 + (b3 - 0x80)) :: ·)
        else none
      | _ => none
    else if b < 0xF5 then
      match t with
      | b2 :: b3 :: b4 :: t4 =>
        if ((if b = 0xF0 then 0x90 else 0x80) ≤ b2) &&
           (b2 ≤ (if b = 0xF4 then 0x8F else 0xBF)) &&
           (0x80 ≤ b3) && (b3 < 0xC0) && (0x80 ≤ b4) && (b4 < 0xC0) then
          (utf8Dec t4).map
            (Char.ofNat ((b - 0xF0) * 262144 + (b2 - 0x80) * 4096 +
                         (b3 - 0x80) * 64 + (b4 - 0x80)) :: ·)
        else none
      | _ => none
    else none

/-- UTF-8 with BOM handling (`utf-8-sig`): strip one leading BOM. -/
def utf8SigDec (l : List Nat) : Option (List Char) :=
  match l with
  | 0xEF :: 0xBB :: 0xBF :: t => utf8Dec t
  | _ => utf8Dec l

/-- Pair up bytes into 16-bit code units (little- or big-endian);
`none` on odd length. -/
def utf16Units (le : Bool) : List Nat → Option (List Nat)
  | [] => some []
  | [_] => none
  | a :: b :: t =>
    (utf16Units le t).map ((if le then a + 256 * b else 256 * a + b) :: ·)

/-- Decode UTF-16 code units, combining surrogate pairs; `none` on a lone
surrogate. -/
def utf16Combine : List Nat → Option (List Char)
  | [] => some []
  | u :: t =>
    if (u < 0xD800) || (0xE000 ≤ u) then (utf16Combine t).map (Char.ofNat u :: ·)
    else if u < 0xDC00 then
      match t with
      | u2 :: t2 =>
        if (0xDC00 ≤ u2) && (u2 < 0xE000) then
          (utf16Combine t2).map
            (Char.ofNat (0x10000 + (u - 0xD800) * 1024 + (u2 - 0xDC00)) :: ·)
        else none
      | [] => none
    else none

/-- CPython `utf-16` codec: detect a BOM, otherwise native (little) endian. -/
def utf16Dec (l : List Nat) : Option (List Char) :=
  match l with
  | 0xFF :: 0xFE :: t => (utf16Units true t).bind utf16Combine
  | 0xFE :: 0xFF :: t => (utf16Units false t).bind utf16Combine
  | _ => (utf16Units true l).bind utf16Combine

/-- CPython `utf-16-le` codec (no BOM consumption). -/
def utf16LeDec (l : List Nat) : Option (List Char) :=
  (utf16Units true l).bind utf16Combine

/-- CPython `utf-16-be` codec (no BOM consumption). -/
def utf16BeDec (l : List Nat) : Option (List Char) :=
  (utf16Units false l).bind utf16Combine

/-- `latin-1` decoding: each byte maps to the code point of the same value
(never fails, so the `errors="ignore"` mode drops nothing). -/
def latin1Dec (l : List Nat) : List Char :=
  l.map (fun n => Char.ofNat n)

/-- `read_txt` (src/app.py lines 134–138): try
utf-8, utf-8-sig, utf-16, utf-16le, utf-16be in order, returning the first
decoding that succeeds; fall back to latin-1 with `errors="ignore"`. -/
def read_txt (b : List Nat) : List Char :=
  match utf8Dec b with
  | some s => s
  | none =>
    match utf8SigDec b with
    | some s => s
    | none =>
      match utf16Dec b with
      | some s => s
      | none =>
        match utf16LeDec b with
        | some s => s
        | none =>
          match utf16BeDec b with
          | some s => s
          | none => latin1Dec b

/-! ### A small backtracking regex engine

CPython's `re` module uses leftmost search with backtracking: at a given
start position, alternatives are tried left to right and greedy
quantifiers longest-first; the first full match wins.  `run` returns the
list of all outcomes at one start position in exactly that backtracking
order, so the head of the list is the match `re.search` would produce
there.  Every quantifier in the source's patterns is applied to a single
character class, so a greedy star over a class (`starCls`) suffices and
the engine terminates structurally.  `bnd` is `\b`, decided from the
word-ness of the previous character (`pw`) and of the next one. -/

/-- One outcome of running a regex at a position: the consumed characters,
the remaining input, and the captured groups. -/
structure ROut where
  m : List Char
  rest : List Char
  caps : List (Nat × List Char)
deriving DecidableEq, Repr

/-- Regex abstract syntax (only the constructs used by the source). -/
inductive RE : Type where
  | eps : RE
  | bnd : RE
  | cls (p : Char → Bool) : RE
  | seq (a b : RE) : RE
  | alt (a b : RE) : RE
  | starCls (p : Char → Bool) : RE
  | grp (n : Nat) (a : RE) : RE

/-- Greedy star over a character class: outcomes from longest to empty. -/
def starOut (p : Char → Bool) (pw : Bool) : List Char → List ROut
  | [] => [⟨[], [], []⟩]
  | c :: t =>
    if p c then
      ((starOut p (pyWord c) t).map (fun o => ⟨c :: o.m, o.rest, []⟩)) ++
        [⟨[], c :: t, []⟩]
    else [⟨[], c :: t, []⟩]

/-- All outcomes of a regex at the current position, in backtracking
order.  `pw` is the word-ness of the character before the position. -/
def run : RE → Bool → List Char → List ROut
  | .eps, _, l => [⟨[], l, []⟩]
  | .bnd, pw, l => if pw != wnHead l then [⟨[], l, []⟩] else []
  | .cls p, _, [] => []
  | .cls p, _, c :: t => if p c then [⟨[c], t, []⟩] else []
  | .seq a b, pw, l =>
    (run a pw l).flatMap fun o₁ =>
      (run b (wnLast pw o₁.m) o₁.rest).map fun o₂ =>
        ⟨o₁.m ++ o₂.m, o₂.rest, o₁.caps ++ o₂.caps⟩
  | .alt a b, pw, l => run a pw l ++ run b pw l
  | .starCls p, pw, l => starOut p pw l
  | .grp n a, pw, l => (run a pw l).map fun o => ⟨o.m, o.rest, o.caps ++ [(n, o.m)]⟩

/-- `re.search` scan: try each position left to right, return the text
before the match together with the first outcome there. -/
def searchAux (re : RE) : Bool → List Char → List Char → Option (List Char × ROut)
  | pw, pre, l =>
    match run re pw l with
    | o :: _ => some (pre.reverse, o)
    | [] =>
      match l with
      | [] => none
      | c :: t => searchAux re (pyWord c) (c :: pre) t

/-- `re.search` from the start of the string. -/
def reSearch (re : RE) (l : List Char) : Option (List Char × ROut) :=
  searchAux re false [] l

/-- Every star outcome splits the input and consumes only class characters. -/
theorem starOut_mem {p pw l} {o : ROut} (h : o ∈ starOut p pw l) :
    o.m ++ o.rest = l ∧ o.caps = [] ∧ ∀ c ∈ o.m, p c = true := by
  induction l generalizing pw o with
  | nil =>
    simp only [starOut, List.mem_singleton] at h
    subst h; simp
  | cons c t ih =>
    cases hp : p c with
    | false =>
      simp only [starOut, hp, Bool.false_eq_true, if_false, List.mem_singleton] at h
      subst h; simp
    | true =>
      simp only [starOut, hp, if_true, List.mem_append, List.mem_map,
        List.mem_singleton] at h
      rcases h with ⟨o', ho', rfl⟩ | rfl
      · obtain ⟨h1, h2, h3⟩ := ih ho'
        refine ⟨by simp [h1], by simp, ?_⟩
        intro x hx
        rcases List.mem_cons.mp hx with rfl | hx
        · exact hp
        · exact h3 x hx
      · simp

/-- Every outcome splits the input: consumed ++ rest = input. -/
theorem run_split {re : RE} {pw l} {o : ROut} (h : o ∈ run re pw l) :
    o.m ++ o.rest = l := by
  induction re generalizing pw l o with
  | eps => simp only [run, List.mem_singleton] at h; subst h; rfl
  | bnd =>
    simp only [run] at h
    split at h
    · simp only [List.mem_singleton] at h; subst h; rfl
    · simp at h
  | cls p =>
    match l with
    | [] => simp [run] at h
    | c :: t =>
      simp only [run] at h
      split at h
      · simp only [List.mem_singleton] at h; subst h; rfl
      · simp at h
  | seq a b iha ihb =>
    simp only [run, List.mem_flatMap, List.mem_map] at h
    obtain ⟨o₁, h₁, o₂, h₂, rfl⟩ := h
    have e₁ := iha h₁
    have e₂ := ihb h₂
    simp only [List.append_assoc, e₂, e₁]
  | alt a b iha ihb =>
    simp only [run, List.mem_append] at h
    rcases h with h | h
    · exact iha h
    · exact ihb h
  | starCls p => exact (starOut_mem h).1
  | grp n a iha =>
    simp only [run, List.mem_map] at h
    obtain ⟨o', h', rfl⟩ := h
    simpa using iha h'

/-- `searchAux` splits the input around the found match. -/
theorem searchAux_split {re : RE} {pw pre l p} {o : ROut}
    (h : searchAux re pw pre l = some (p, o)) :
    p ++ o.m ++ o.rest = pre.reverse ++ l := by
  induction l generalizing pw pre with
  | nil =>
    rw [searchAux] at h
    rcases hrun : run re pw [] with _ | ⟨o', os⟩
    · rw [hrun] at h; simp at h
    · rw [hrun] at h
      simp only [Option.some.injEq, Prod.mk.injEq] at h
      obtain ⟨rfl, rfl⟩ := h
      have hin : o' ∈ run re pw ([] : List Char) := by
        rw [hrun]; exact List.mem_cons_self _ _
      have := run_split hin
      simp only [List.append_assoc, this, List.append_nil]
  | cons c t ih =>
    rw [searchAux] at h
    rcases hrun : run re pw (c :: t) with _ | ⟨o', os⟩
    · rw [hrun] at h
      simpa using ih h
    · rw [hrun] at h
      simp only [Option.some.injEq, Prod.mk.injEq] at h
      obtain ⟨rfl, rfl⟩ := h
      have hin : o' ∈ run re pw (c :: t) := by
        rw [hrun]; exact List.mem_cons_self _ _
      have := run_split hin
      rw [List.append_assoc, this]

/-- Fuel-driven worker for `subAll` (structural recursion so that the
kernel can evaluate it; the fuel strictly exceeds the input length at
every call, so it never runs out). -/
def subAllF (re : RE) (repl : List Char) : Nat → Bool → List Char → List Char
  | 0, _, l => l
  | fuel + 1, pw, l =>
    match searchAux re pw [] l with
    | none => l
    | some (pre, o) =>
      match o.m, o.rest with
      | [], [] => pre ++ repl
      | [], c :: t => pre ++ repl ++ c :: subAllF re repl fuel (pyWord c) t
      | _ :: _, r => pre ++ repl ++ subAllF re repl fuel (wnLast pw o.m) r

/-- `re.sub`: replace every non-overlapping match, scanning left to right.
After a match the scan resumes after it, with the word-ness context taken
from the match's last character.  A zero-width match substitutes and then
copies one character (CPython ≥ 3.7 semantics); the source's patterns can
never match the empty string, so that branch is unreachable here. -/
def subAll (re : RE) (repl : List Char) (pw : Bool) (l : List Char) : List Char :=
  subAllF re repl (l.length + 1) pw l

/-- Python `m.group(n)` with `or ""` for a group that did not participate. -/
def capGet (o : ROut) (n : Nat) : List Char := (o.caps.lookup n).getD []

/-- Single literal character. -/
def chrRE (c : Char) : RE := .cls (fun x => x = c)

/-- Literal string. -/
def strRE : List Char → RE
  | [] => .eps
  | [c] => chrRE c
  | c :: t => .seq (chrRE c) (strRE t)

/-- Literal string under `re.IGNORECASE` (ASCII case folding; identity on
Devanagari). -/
def strCIRE : List Char → RE
  | [] => .eps
  | [c] => .cls (fun x => x.toLower = c.toLower)
  | c :: t => .seq (.cls (fun x => x.toLower = c.toLower)) (strCIRE t)

/-- `x?` (greedy: try the branch before the empty match). -/
def optRE (a : RE) : RE := .alt a .eps

/-- `[...]+` over a character class. -/
def plusCls (p : Char → Bool) : RE := .seq (.cls p) (.starCls p)

/-- `[...]{1,2}` over a character class (greedy). -/
def rep12 (p : Char → Bool) : RE := .seq (.cls p) (optRE (.cls p))

/-- Right-nested sequence of regexes. -/
def seqs : List RE → RE
  | [] => .eps
  | [r] => r
  | r :: rs => .seq r (seqs rs)

/-- Right-nested alternation (tried left to right, as CPython does). -/
def alts : List RE → RE
  | [] => .eps
  | [r] => r
  | r :: rs => .alt r (alts rs)

/-! ### The source's compiled patterns (src/app.py lines 122–125, 211–214,
229–233) -/

/-- `DEVN.search(s)` for `DEVN = re.compile(r"[ऀ-ॿ]")`: is any
character of the Devanagari block present? -/
def DEVN_search (l : List Char) : Bool :=
  l.any (fun c => (0x900 ≤ c.toNat) && (c.toNat ≤ 0x97F))

/-- `[A-Z]` (ASCII). -/
def upAZ (c : Char) : Bool := ('A' ≤ c) && (c ≤ 'Z')

/-- `[6-9]` (ASCII). -/
def digit69 (c : Char) : Bool := ('6' ≤ c) && (c ≤ '9')

/-- `[A-Za-z]` (ASCII). -/
def asciiAlpha (c : Char) : Bool :=
  (('A' ≤ c) && (c ≤ 'Z')) || (('a' ≤ c) && (c ≤ 'z'))

/-- `[0-9]` (ASCII). -/
def asciiDigit (c : Char) : Bool := ('0' ≤ c) && (c ≤ '9')

/-- `[०-९]` (Devanagari digits). -/
def devDigit (c : Char) : Bool := (0x966 ≤ c.toNat) && (c.toNat ≤ 0x96F)

/-- `[०-९0-9]`. -/
def devAsciiDigit (c : Char) : Bool :=
  ((0x966 ≤ c.toNat) && (c.toNat ≤ 0x96F)) || (('0' ≤ c) && (c ≤ '9'))

/-- `\s*`. -/
def sStar : RE := .starCls pySpace

/-- `\d+`. -/
def dPlus : RE := plusCls pyDigit

/-- `\d{4}`. -/
def d4RE : RE := seqs [.cls pyDigit, .cls pyDigit, .cls pyDigit, .cls pyDigit]

/-- `AADHAAR = re.compile(r"\b\d{4}\s?\d{4}\s?\d{4}\b")`. -/
def AADHAAR : RE :=
  seqs [.bnd, d4RE, optRE (.cls pySpace), d4RE, optRE (.cls pySpace), d4RE, .bnd]

/-- `PAN = re.compile(r"\b[A-Z]{5}\d{4}[A-Z]\b")`. -/
def PAN : RE :=
  seqs [.bnd, .cls upAZ, .cls upAZ, .cls upAZ, .cls upAZ, .cls upAZ,
        .cls pyDigit, .cls pyDigit, .cls pyDigit, .cls pyDigit, .cls upAZ, .bnd]

/-- `MOBILE = re.compile(r"\b[6-9]\d{9}\b")`. -/
def MOBILE : RE :=
  seqs [.bnd, .cls digit69,
        .cls pyDigit, .cls pyDigit, .cls pyDigit, .cls pyDigit, .cls pyDigit,
        .cls pyDigit, .cls pyDigit, .cls pyDigit, .cls pyDigit, .bnd]

/-- Replacement for Aadhaar numbers. -/
def aadMask : List Char := ("XXXX XXXX XXXX").toList

/-- Replacement for PAN numbers. -/
def panMask : List Char := ("XXXXX9999X").toList

/-- Replacement for mobile numbers. -/
def mobMask : List Char := ("XXXXXXXXXX").toList

/-- `red` (src/app.py lines 127–131): mask Aadhaar, then PAN, then mobile
numbers. -/
def red (s : List Char) : List Char :=
  subAll MOBILE mobMask false
    (subAll PAN panMask false
      (subAll AADHAAR aadMask false s))

/-! ### Clause highlighting (src/app.py lines 211–226) -/

/-- `_CLAUSE` (src/app.py lines 211–214): five alternatives, each its own
group, compiled with `re.I`. -/
def clauseRE : RE :=
  alts [
    .grp 1 (seqs [strCIRE ("कलम").toList, sStar, dPlus, optRE (.cls asciiAlpha)]),
    .grp 2 (seqs [strCIRE ("धोरण").toList, sStar, dPlus]),
    .grp 3 (seqs [strCIRE ("अट").toList, sStar, dPlus]),
    .grp 4 (seqs [strCIRE ("Clause").toList, sStar, dPlus]),
    .grp 5 (seqs [strCIRE ("Section").toList, sStar, dPlus, optRE (.cls asciiAlpha)])]

/-- The replacement text passed to `_CLAUSE.sub`: the source writes the raw
string `r"<span class='hl'>\\1</span>"`, whose template escape `\\` is a
literal backslash, so the substituted text is the constant
`<span class='hl'>\1</span>` (backslash, digit one) — not a group
reference. -/
def hlRepl : List Char :=
  ("<span class=").toList ++ [Char.ofNat 39] ++ ("hl").toList ++
    [Char.ofNat 39] ++ (">").toList ++ [Char.ofNat 92, '1'] ++ ("</span>").toList

/-- The residency keywords checked per line of GR text. -/
def grKeyword (ln : List Char) : Bool :=
  containsSub ("स्थानिक").toList ln || containsSub ("रहिवासी").toList ln

/-- One line of `highlight_gr`: highlight and bullet a line containing a
keyword or clause marker, otherwise pass it through. -/
def hlProcLine (ln : List Char) : List Char :=
  if grKeyword ln || (reSearch clauseRE ln).isSome then
    '•' :: ' ' :: subAll clauseRE hlRepl false ln
  else ln

/-- The ellipsis appended when the GR text is truncated. -/
def hlEllipsis : List Char := [Char.ofNat 0x2026]

/-- The `out` list built by `highlight_gr` before joining with `<br>`. -/
def hlList (maxLines : Nat) (text : List Char) : List (List Char) :=
  ((splitlines text).take maxLines).map hlProcLine ++
    (if maxLines < (splitlines text).length then [hlEllipsis] else [])

/-- `"<br>".join(...)`. -/
def joinBR : List (List Char) → List Char
  | [] => []
  | [x] => x
  | x :: xs => x ++ ("<br>").toList ++ joinBR xs

/-- `highlight_gr` (src/app.py lines 216–226); `maxLines` is the
`max_lines` parameter, 140 at the call sites. -/
def highlight_gr (text : List Char) (maxLines : Nat) : List Char :=
  if pyStrip text = [] then ("<em>—</em>").toList
  else joinBR (hlList maxLines text)

/-! ### Marathi case patterns (src/app.py lines 229–233) -/

/-- `[अ-ह]`. -/
def devAH (c : Char) : Bool := (0x905 ≤ c.toNat) && (c.toNat ≤ 0x939)

/-- `[^\s,]`. -/
def notSpComma (c : Char) : Bool := !(pySpace c) && !(c = ',')

/-- `[^,]`. -/
def notComma (c : Char) : Bool := !(c = ',')

/-- `[, ]`. -/
def commaSp (c : Char) : Bool := (c = ',') || (c = ' ')

/-- `MAR_CAND` (src/app.py line 229). -/
def MAR_CAND : RE :=
  seqs [
    .grp 1 (alts [strRE ("सौ.").toList,
                  .seq (strRE ("श्री").toList) (optRE (chrRE '.'))]),
    sStar,
    .grp 2 (.seq (plusCls devAH) (.starCls notSpComma)),
    plusCls pySpace,
    .grp 3 (.seq (.cls devAH) (.starCls notComma)),
    plusCls commaSp,
    sStar,
    strRE ("रा.").toList,
    sStar,
    .grp 4 (.seq (.cls devAH) (.starCls notComma)),
    optRE (seqs [chrRE ',', sStar, strRE ("ता.").toList, sStar,
                 .grp 5 (.seq (.cls devAH) (.starCls notComma))])]

/-- `MAR_HEAR` (src/app.py line 230). -/
def MAR_HEAR : RE :=
  seqs [
    .grp 1 (strRE ("सुनावणी").toList),
    sStar,
    .grp 2 (alts [strRE ("दिनांक").toList, strRE ("दिनाँक").toList,
                  .seq (strRE ("दि").toList) (optRE (chrRE '.'))]),
    sStar,
    optRE (.cls (fun c => (c = ':') || (c = '-'))),
    sStar,
    .grp 3 (seqs [rep12 pyDigit, chrRE '/', rep12 pyDigit, chrRE '/',
                  .cls pyDigit, .cls pyDigit, .cls pyDigit, .cls pyDigit])]

/-- `MAR_HEAR_TIME` (src/app.py line 231). -/
def MAR_HEAR_TIME : RE :=
  seqs [
    .grp 1 (alts [strRE ("सकाळी").toList, strRE ("सायंकाळी").toList]),
    sStar,
    .grp 2 (.seq (rep12 devAsciiDigit)
                 (optRE (.grp 3 (.seq (chrRE '.') (plusCls asciiDigit))))),
    sStar,
    .grp 4 (alts [strRE ("वा").toList, strRE ("वाजता").toList])]

/-- `MAR_DIST` (src/app.py line 232). -/
def MAR_DIST : RE :=
  seqs [
    .grp 1 (alts [dPlus,
                  seqs [dPlus, chrRE '.', dPlus],
                  plusCls devDigit]),
    sStar,
    .grp 2 (alts [seqs [strRE ("कि").toList, optRE (chrRE '.'),
                        strRE ("मी").toList, optRE (chrRE '.')],
                  strRE ("किमी").toList,
                  strRE ("किलोमीटर").toList])]

/-- `MAR_REF_LINE` (src/app.py line 233). -/
def MAR_REF_LINE : RE :=
  .grp 1 (alts [strRE ("शासन निर्णय").toList, strRE ("पत्र").toList,
                strRE ("तक्रार अर्ज").toList, strRE ("सुनावणी").toList,
                strRE ("क्रमांक").toList, strRE ("दिनांक").toList])

/-- The honorific pattern used for attendee lines
(`re.search(r"(श्री|श्रीमती|सौ\.)", ln)`, src/app.py line 260). -/
def ATT_HON : RE :=
  .grp 1 (alts [strRE ("श्री").toList, strRE ("श्रीमती").toList,
                strRE ("सौ.").toList])

/-- The character set of `ln.strip(" \n\t•-")` (src/app.py line 259). -/
def attChars : List Char := [' ', '\n', '\t', '•', '-']

/-- The fact record returned by `parse_marathi_case`. -/
structure CaseRecord where
  complainant_name : List Char
  complainant_village : List Char
  complainant_taluka : List Char
  hearing_date : List Char
  hearing_time : List Char
  distance_km : List Char
  attendees : List (List Char)
  refs : List (List Char)
deriving DecidableEq, Repr

/-- `list(dict.fromkeys(xs))`: drop later duplicates, keeping
first-occurrence order (worker carries the keys seen so far). -/
def pyDedupAux (seen : List (List Char)) : List (List Char) → List (List Char)
  | [] => []
  | x :: xs =>
    if seen.contains x then pyDedupAux seen xs
    else x :: pyDedupAux (x :: seen) xs

/-- `list(dict.fromkeys(xs))`. -/
def pyDedup (l : List (List Char)) : List (List Char) := pyDedupAux [] l

/-- `parse_marathi_case` (src/app.py lines 235–267). -/
def parse_marathi_case (text : List Char) : CaseRecord :=
  ⟨(match reSearch MAR_CAND text with
    | some (_, o) => pyStrip (capGet o 2 ++ ' ' :: capGet o 3)
    | none => []),
   (match reSearch MAR_CAND text with
    | some (_, o) => pyStrip (capGet o 4)
    | none => []),
   (match reSearch MAR_CAND text with
    | some (_, o) => pyStrip (capGet o 5)
    | none => []),
   (match reSearch MAR_HEAR text with
    | some (_, o) => capGet o 3
    | none => []),
   (match reSearch MAR_HEAR_TIME text with
    | some (_, o) =>
      pyReplace ("वा").toList ("वाजता").toList (capGet o 2 ++ ' ' :: capGet o 4)
    | none => []),
   (match reSearch MAR_DIST text with
    | some (_, o) => o.m
    | none => []),
   (if containsSub ("उपस्थित होते").toList text then
      ((((splitlines (splitBeforeFirst ("तक्रार").toList
            (splitAfterFirst ("उपस्थित होते").toList text))).filter
          (fun ln => !(pyStrip ln = []))).map (pyStripChars attChars)).filter
        (fun ln => (reSearch ATT_HON ln).isSome))
    else []),
   (pyDedup (((splitlines text).filter
      (fun ln => (reSearch MAR_REF_LINE ln).isSome)).map pyStrip)).take 8⟩

/-! ### PDF extraction (src/app.py lines 140–189)

The PDF backends (PyMuPDF, pdfminer, pypdf) are external libraries; their
outputs on the given byte buffer are modelled as components of a
`PdfEnv`.  An `Option` value of `none` stands for the backend raising an
exception (caught by the corresponding `except: pass`).
`extract_text_with_pypdf` already traps all its own failures and returns
a plain string, so it appears as `pypdfRes`.  Block coordinates are
modelled as rationals (the source sorts by `round(·, 1)` of the floats
PyMuPDF reports). -/

/-- One PyMuPDF text block: position `(x, y)` (tuple fields `b[0]`, `b[1]`)
and block text (`b[4]`; PyMuPDF block tuples always have ≥ 5 fields). -/
structure PdfBlock where
  x : ℚ
  y : ℚ
  txt : List Char

/-- Round half to even (Python `round`) of a rational. -/
def roundHalfEven (x : ℚ) : ℤ :=
  let f := Int.floor x
  let r := x - f
  if r < 1/2 then f
  else if 1/2 < r then f + 1
  else if f % 2 = 0 then f else f + 1

/-- Python `round(q, 1)`. -/
def pyRound1 (q : ℚ) : ℚ := (roundHalfEven (10 * q) : ℚ) / 10

/-- Comparison used by `blocks.sort(key=lambda b: (round(b[1],1),
round(b[0],1)))`: lexicographic on the rounded (y, x) pair. -/
def blockLE (a b : PdfBlock) : Bool :=
  if pyRound1 a.y < pyRound1 b.y then true
  else if pyRound1 a.y = pyRound1 b.y then decide (pyRound1 a.x ≤ pyRound1 b.x)
  else false

/-- The backend outcomes for one PDF byte buffer. -/
structure PdfEnv where
  fitz : Bool
  pages : Option (List (List Char))
  blocks : Option (List (List PdfBlock))
  pdfminerAvail : Bool
  pdfminerRes : Option (List Char)
  pypdfRes : List Char

/-- Tier A: PyMuPDF page text, newline-joined and stripped; empty if the
backend is missing or raised. -/
def primaryText (env : PdfEnv) : List Char :=
  match env.fitz, env.pages with
  | true, some ps => pyStrip (joinNL ps)
  | _, _ => []

/-- Stable insertion of one element: placed before the first element not
`le`-below it. -/
def insertStable (le : PdfBlock → PdfBlock → Bool) (x : PdfBlock) :
    List PdfBlock → List PdfBlock
  | [] => [x]
  | y :: ys => if le x y then x :: y :: ys else y :: insertStable le x ys

/-- Stable sort (insertion sort).  Python `list.sort` is a stable sort;
for a total pre-order such as `blockLE` the stable sort of a list is
unique, so this agrees with the source's sort. -/
def pySort (le : PdfBlock → PdfBlock → Bool) : List PdfBlock → List PdfBlock
  | [] => []
  | x :: xs => insertStable le x (pySort le xs)

/-- Tier B: block texts per page, sorted by rounded position, non-empty
ones stripped and newline-joined, the whole stripped. -/
def blockText (bps : List (List PdfBlock)) : List Char :=
  pyStrip (joinNL (bps.flatMap (fun bs =>
    (((pySort blockLE bs).filter (fun b => !(pyStrip b.txt = []))).map
      (fun b => pyStrip b.txt)))))

/-- Tier C (src/app.py lines 176–184): write the buffer to a temporary
file, run pdfminer on it, unlink the file, and adopt the result if it has
Devanagari or is longer.  Returns the new best text and whether the
`os.unlink` call was reached: when the backend raises, control jumps to
the outer `except: pass` and the unlink three lines below the call is
skipped, so the temporary file is left on disk. -/
def pdfminer_tier (text : List Char) (res : Option (List Char)) :
    List Char × Bool :=
  match res with
  | none => (text, false)
  | some t2 =>
    ((if DEVN_search t2 || text.length < t2.length then t2 else text), true)

/-- `extract_text_from_pdf` (src/app.py lines 148–189), as a function of
the backend outcomes. -/
def extract_text_from_pdf (env : PdfEnv) : List Char :=
  let textA := primaryText env
  let textB :=
    if env.fitz && (!(DEVN_search textA) || textA.length < 60) then
      match env.blocks with
      | some bps =>
        let tb := blockText bps
        if textA.length < tb.length || (DEVN_search tb && !(DEVN_search textA))
        then tb else textA
      | none => textA
    else textA
  let textC :=
    if !(DEVN_search textB) && env.pdfminerAvail then
      (pdfminer_tier textB env.pdfminerRes).1
    else textB
  let textD :=
    if textC.length < 50 then
      if DEVN_search env.pypdfRes || textC.length < env.pypdfRes.length then
        env.pypdfRes
      else textC
    else textC
  pyStrip textD

/-! ### Helper lemmas about stripping -/

/-- The head remaining after `dropWhile` fails the predicate. -/
theorem dropWhile_head_false {p : Char → Bool} {l : List Char} {c t}
    (h : l.dropWhile p = c :: t) : p c = false := by
  induction l with
  | nil => simp [List.dropWhile] at h
  | cons x xs ih =>
    rw [List.dropWhile_cons] at h
    split at h
    · exact ih h
    · rename_i hx
      injection h with h1 _
      subst h1
      simpa using hx

/-- `dropWhile` is the identity when the head already fails the predicate. -/
theorem dropWhile_of_head_false {p : Char → Bool} {l : List Char}
    (h : ∀ c t, l = c :: t → p c = false) : l.dropWhile p = l := by
  cases l with
  | nil => rfl
  | cons c t =>
    rw [List.dropWhile_cons, h c t rfl]
    simp

/-- A stripped string does not start with whitespace. -/
theorem pyStrip_head_false {l : List Char} {c : Char} {t}
    (h : pyStrip l = c :: t) : pySpace c = false := by
  unfold pyStrip at h
  have hD : ((l.dropWhile pySpace).reverse).dropWhile pySpace = (c :: t).reverse := by
    rw [← h, List.reverse_reverse]
  have hsplit := List.takeWhile_append_dropWhile
    (p := pySpace) (l := (l.dropWhile pySpace).reverse)
  rw [hD] at hsplit
  have hrev : l.dropWhile pySpace =
      c :: (t ++ ((l.dropWhile pySpace).reverse.takeWhile pySpace).reverse) := by
    have h2 := congrArg List.reverse hsplit
    simpa [List.reverse_append] using h2.symm
  exact dropWhile_head_false hrev

/-- A stripped string does not end with whitespace. -/
theorem pyStrip_rev_head_false {l : List Char} {c : Char} {t}
    (h : (pyStrip l).reverse = c :: t) : pySpace c = false := by
  unfold pyStrip at h
  rw [List.reverse_reverse] at h
  exact dropWhile_head_false h

/-- Stripping is idempotent. -/
theorem pyStrip_idem (l : List Char) : pyStrip (pyStrip l) = pyStrip l := by
  have h1 : (pyStrip l).dropWhile pySpace = pyStrip l :=
    dropWhile_of_head_false (fun c t h => pyStrip_head_false h)
  have h2 : ((pyStrip l).reverse).dropWhile pySpace = (pyStrip l).reverse :=
    dropWhile_of_head_false (fun c t h => pyStrip_rev_head_false h)
  show ((((pyStrip l).dropWhile pySpace).reverse).dropWhile pySpace).reverse = pyStrip l
  rw [h1, h2, List.reverse_reverse]

/-! ### Claims C9, C10 — the Text Reader -/

/-- Claim C9: for every byte buffer that is valid UTF-8, `read_txt` returns
exactly the UTF-8 decoding of that buffer (the utf-8 codec is tried
first, so its success short-circuits the rest of the chain). -/
theorem read_txt_utf8_exact (b : List Nat) (s : List Char)
    (h : utf8Dec b = some s) : read_txt b = s := by
  unfold read_txt
  rw [h]

/-- Witness for C9 at the buffer `[0x41, 0xE0, 0xA4, 0x95]`
(`"Aक"` in UTF-8). -/
theorem read_txt_utf8_exact_witness :
    utf8Dec [0x41, 0xE0, 0xA4, 0x95] = some ['A', Char.ofNat 0x915] ∧
      read_txt [0x41, 0xE0, 0xA4, 0x95] = ['A', Char.ofNat 0x915] :=
  ⟨by decide,
    read_txt_utf8_exact [0x41, 0xE0, 0xA4, 0x95] ['A', Char.ofNat 0x915] (by decide)⟩

/-- Claim C10: `read_txt` is total by construction, and on the final
fallback path — every listed Unicode decoding failed — it returns the
latin-1 decoding, which maps each byte to exactly one character, so the
output length equals the byte length. -/
theorem read_txt_latin1_fallback (b : List Nat)
    (h1 : utf8Dec b = none) (h2 : utf8SigDec b = none) (h3 : utf16Dec b = none)
    (h4 : utf16LeDec b = none) (h5 : utf16BeDec b = none) :
    read_txt b = latin1Dec b ∧ (read_txt b).length = b.length := by
  unfold read_txt
  rw [h1, h2, h3, h4, h5]
  exact ⟨rfl, by simp [latin1Dec]⟩

/-- Witness for C10 at the buffer `[0xFF]` (invalid in every listed
Unicode encoding: not UTF-8, no BOM, odd length for UTF-16). -/
theorem read_txt_latin1_fallback_witness :
    (utf8Dec [0xFF] = none ∧ utf16Dec [0xFF] = none) ∧
      (read_txt [0xFF] = latin1Dec [0xFF] ∧ (read_txt [0xFF]).length = 1) :=
  ⟨by decide,
   read_txt_latin1_fallback [0xFF] (by decide) (by decide) (by decide)
     (by decide) (by decide)⟩

/-! ### Claim C4 — the pdfminer tier's temporary file -/

/-- Claim C4 (code bug): in the pdfminer tier the temporary file's
`os.unlink` is inside the same `try` block, three lines after the
backend call; when `pdfminer_extract_text` raises, control jumps to the
outer `except: pass` and the unlink is skipped, so the file created with
`delete=False` is leaked.  The second component of `pdfminer_tier` is
whether the unlink was reached: `false` on the raising path, `true` on
the success path. -/
theorem pdfminer_temp_file_leak :
    (pdfminer_tier [] none).2 = false ∧
      (∀ text t2, (pdfminer_tier text (some t2)).2 = true) ∧
      (pdfminer_tier (("ab").toList) none).2 = false := by
  refine ⟨rfl, ?_, rfl⟩
  intro text t2
  unfold pdfminer_tier
  rfl

/-! ### Claim C2 — the clause highlighter's replacement text -/

/-- Claim C2 (code bug): the replacement passed to `_CLAUSE.sub` is the raw
string `r"<span class='hl'>\\1</span>"`, whose `\\` escape denotes a
literal backslash, so every clause-marker match is replaced by the
constant `<span class='hl'>\1</span>` and the matched marker text is
lost.  Evaluated at the line `"Section 5"`: the rendered line is the
bullet plus that constant, the marker text no longer occurs in it, and a
line without keyword or marker passes through unchanged. -/
theorem highlight_gr_span_literal :
    hlProcLine (("Section 5").toList) = '•' :: ' ' :: hlRepl ∧
      containsSub (("Section 5").toList) ('•' :: ' ' :: hlRepl) = false ∧
      containsSub [Char.ofNat 92, '1'] ('•' :: ' ' :: hlRepl) = true ∧
      hlProcLine (("no marker here").toList) = ("no marker here").toList := by
  decide

/-! ### Claim C7 — truncation of the clause highlighter -/

/-- Claim C7 counterexample: the GR text consisting of the single line
`"…"` is non-whitespace and has one line (≤ 140), yet the rendered
output contains an ellipsis line, so "no truncation marker when at most
140 lines", read on the rendered lines, fails. -/
theorem highlight_gr_truncation_counterexample :
    pyStrip hlEllipsis ≠ [] ∧ (splitlines hlEllipsis).length ≤ 140 ∧
      (hlList 140 hlEllipsis).count hlEllipsis = 1 := by decide

/-- Claim C7 (amended): for GR text with at least one non-whitespace
character, none of whose source lines is itself the ellipsis line: with
at most 140 lines the rendered list contains no truncation marker; with
more than 140 lines exactly one marker is appended, after exactly 140
rendered lines. -/
theorem highlight_gr_truncation (t : List Char)
    (hne : pyStrip t ≠ [])
    (hnm : ∀ ln ∈ splitlines t, ln ≠ hlEllipsis) :
    ((splitlines t).length ≤ 140 → (hlList 140 t).count hlEllipsis = 0) ∧
      (140 < (splitlines t).length →
        hlList 140 t = ((splitlines t).take 140).map hlProcLine ++ [hlEllipsis] ∧
        (hlList 140 t).count hlEllipsis = 1 ∧
        (hlList 140 t).length = 141) := by
  have hproc : ∀ ln ∈ (splitlines t).take 140, hlProcLine ln ≠ hlEllipsis := by
    intro ln hln
    have hmem : ln ∈ splitlines t := List.take_subset 140 _ hln
    unfold hlProcLine
    split
    · intro hEq
      simp [hlEllipsis] at hEq
    · exact hnm ln hmem
  have hcount0 : (((splitlines t).take 140).map hlProcLine).count hlEllipsis = 0 := by
    rw [List.count_eq_zero]
    intro hmem
    rw [List.mem_map] at hmem
    obtain ⟨ln, hln, heq⟩ := hmem
    exact hproc ln hln heq
  constructor
  · intro hle
    unfold hlList
    rw [if_neg (by omega)]
    simpa using hcount0
  · intro hgt
    have hlist : hlList 140 t =
        ((splitlines t).take 140).map hlProcLine ++ [hlEllipsis] := by
      unfold hlList
      rw [if_pos hgt]
    refine ⟨hlist, ?_, ?_⟩
    · rw [hlist, List.count_append, hcount0]
      simp
    · rw [hlist]
      simp only [List.length_append, List.length_map, List.length_take,
        List.length_singleton]
      omega

/-- Witness for the amended C7 at the one-line text `"a"`. -/
theorem highlight_gr_truncation_witness :
    pyStrip ['a'] ≠ [] ∧ (∀ ln ∈ splitlines ['a'], ln ≠ hlEllipsis) ∧
      (hlList 140 ['a']).count hlEllipsis = 0 :=
  ⟨by decide, by decide,
    (highlight_gr_truncation ['a'] (by decide) (by decide)).1 (by decide)⟩

/-! ### Claim C1 — the geometry-aware block tier -/

/-- Blocks of the C1 counterexample: one block of text `"क"`. -/
def c1Blocks : List (List PdfBlock) := [[⟨0, 0, ("क").toList⟩]]

/-- Backend outcomes of the C1 counterexample: PyMuPDF present, page text
empty, one Devanagari block of one character, pdfminer absent, pypdf
returning a longer Devanagari text. -/
def c1Env : PdfEnv := ⟨true, some [[]], some c1Blocks, false, none, ("कख").toList⟩

/-- Claim C1 counterexample: the primary text is empty (under 60 chars, no
Devanagari) and the block text contains Devanagari, yet the function does
not return the block text: the block text is under 50 characters, so the
tertiary (pypdf) tier still runs and its longer Devanagari result is
adopted. -/
theorem pdf_block_tier_counterexample :
    (c1Env.fitz = true ∧ DEVN_search (primaryText c1Env) = false ∧
      (primaryText c1Env).length < 60 ∧
      DEVN_search (blockText c1Blocks) = true) ∧
    extract_text_from_pdf c1Env ≠ blockText c1Blocks := by decide

/-- Claim C1 (amended): under the claim's hypotheses and additionally the
block-mode text being at least 50 characters long (so the tertiary tier
does not run), `extract_text_from_pdf` returns the block-mode text — the
non-empty block texts, sorted by rounded vertical then horizontal
position, joined by newlines and whitespace-trimmed. -/
theorem pdf_block_tier_adopts (env : PdfEnv) (bps : List (List PdfBlock))
    (hf : env.fitz = true) (hb : env.blocks = some bps)
    (h1 : DEVN_search (primaryText env) = false)
    (h2 : (primaryText env).length < 60)
    (h3 : DEVN_search (blockText bps) = true)
    (h4 : 50 ≤ (blockText bps).length) :
    extract_text_from_pdf env = blockText bps := by
  have h4' : ¬ (blockText bps).length < 50 := by omega
  simp only [extract_text_from_pdf, hf, hb, h1, h3, Bool.not_false, Bool.not_true,
    Bool.true_and, Bool.and_true, Bool.true_or, Bool.or_true, Bool.false_and,
    Bool.and_false, Bool.false_or, Bool.or_false, if_true, if_false,
    Bool.false_eq_true, Bool.true_eq_false, ite_true, ite_false, if_neg h4']
  unfold blockText
  rw [pyStrip_idem]

/-- Blocks of the C1 witness: one 50-character Devanagari block. -/
def c1wBlocks : List (List PdfBlock) := [[⟨0, 0, List.replicate 50 'क'⟩]]

/-- Backend outcomes of the C1 witness. -/
def c1wEnv : PdfEnv := ⟨true, some [[]], some c1wBlocks, false, none, []⟩

/-- Witness for the amended C1 at a 50-character Devanagari block. -/
theorem pdf_block_tier_adopts_witness :
    (DEVN_search (primaryText c1wEnv) = false ∧
      DEVN_search (blockText c1wBlocks) = true ∧
      50 ≤ (blockText c1wBlocks).length) ∧
    extract_text_from_pdf c1wEnv = blockText c1wBlocks :=
  ⟨by decide,
    pdf_block_tier_adopts c1wEnv c1wBlocks rfl rfl (by decide) (by decide)
      (by decide) (by decide)⟩

/-! ### Claim C6 — the references field -/

/-- All outcomes of a literal-string pattern: a single outcome consuming
the literal when it is a direct prefix, nothing otherwise. -/
theorem run_strRE (w : List Char) (pw : Bool) (l : List Char) :
    run (strRE w) pw l =
      if startsWith w l then [⟨w, l.drop w.length, []⟩] else [] := by
  induction w generalizing pw l with
  | nil => simp [strRE, run, startsWith]
  | cons c ws ih =>
    cases ws with
    | nil =>
      cases l with
      | nil => simp [strRE, chrRE, run, startsWith]
      | cons x t =>
        by_cases hx : x = c
        · subst hx
          simp [strRE, chrRE, run, startsWith]
        · have h1 : (x = c) = False := eq_false hx
          have h2 : (c = x) = False := eq_false (fun h => hx (Eq.symm h))
          simp [strRE, chrRE, run, startsWith, h1, h2]
    | cons d ws' =>
      cases l with
      | nil => simp [strRE, chrRE, run, startsWith]
      | cons x t =>
        by_cases hx : x = c
        · subst hx
          by_cases hs : startsWith (d :: ws') t
          · simp [strRE, chrRE, run, startsWith, ih, hs, wnLast]
          · simp [strRE, chrRE, run, startsWith, ih, hs]
        · have h1 : (x = c) = False := eq_false hx
          have h2 : (c = x) = False := eq_false (fun h => hx (Eq.symm h))
          simp [strRE, chrRE, run, startsWith, h1, h2]

/-- A group does not change whether the pattern fires. -/
theorem run_grp_isEmpty (n : Nat) (a : RE) (pw : Bool) (l : List Char) :
    (run (.grp n a) pw l).isEmpty = (run a pw l).isEmpty := by
  simp only [run]
  cases run a pw l <;> rfl

/-- An alternation fires exactly when one branch fires. -/
theorem run_alt_isEmpty (a b : RE) (pw : Bool) (l : List Char) :
    (run (.alt a b) pw l).isEmpty =
      ((run a pw l).isEmpty && (run b pw l).isEmpty) := by
  simp only [run]
  cases run a pw l <;> simp

/-- A literal pattern fires exactly when it is a prefix. -/
theorem run_str_isEmpty (w : List Char) (pw : Bool) (l : List Char) :
    (run (strRE w) pw l).isEmpty = !(startsWith w l) := by
  rw [run_strRE]
  by_cases h : startsWith w l <;> simp [h]

/-- The citation keywords of `MAR_REF_LINE`. -/
def refKeywords : List (List Char) :=
  [("शासन निर्णय").toList, ("पत्र").toList, ("तक्रार अर्ज").toList,
   ("सुनावणी").toList, ("क्रमांक").toList, ("दिनांक").toList]

/-- Boolean `any` distributes over disjunction. -/
theorem list_any_or {α : Type} (l : List α) (f g : α → Bool) :
    (l.any fun a => f a || g a) = (l.any f || l.any g) := by
  induction l with
  | nil => rfl
  | cons a t ih =>
    simp only [List.any_cons, ih]
    cases f a <;> cases g a <;> simp

/-- `MAR_REF_LINE` fires at a position exactly when some keyword starts
there. -/
theorem refRun_isEmpty (pw : Bool) (l : List Char) :
    (run MAR_REF_LINE pw l).isEmpty =
      !(refKeywords.any fun k => startsWith k l) := by
  show (run (.grp 1 (.alt (strRE (("शासन निर्णय").toList))
    (.alt (strRE (("पत्र").toList)) (.alt (strRE (("तक्रार अर्ज").toList))
      (.alt (strRE (("सुनावणी").toList)) (.alt (strRE (("क्रमांक").toList))
        (strRE (("दिनांक").toList)))))))) pw l).isEmpty = _
  rw [run_grp_isEmpty, run_alt_isEmpty, run_alt_isEmpty, run_alt_isEmpty,
    run_alt_isEmpty, run_alt_isEmpty, run_str_isEmpty, run_str_isEmpty,
    run_str_isEmpty, run_str_isEmpty, run_str_isEmpty, run_str_isEmpty]
  simp only [refKeywords, List.any_cons, List.any_nil, Bool.or_false,
    Bool.not_or]

/-- A `MAR_REF_LINE` search succeeds exactly when the line contains one of
the citation keywords. -/
theorem refSearch_eq_contains (ln : List Char) : ∀ (pw : Bool) (pre : List Char),
    (searchAux MAR_REF_LINE pw pre ln).isSome =
      (refKeywords.any fun k => containsSub k ln) := by
  induction ln with
  | nil =>
    intro pw pre
    rw [searchAux]
    rcases hrun : run MAR_REF_LINE pw [] with _ | ⟨o, os⟩
    · simp [refKeywords, containsSub, startsWith]
    · exfalso
      have h := refRun_isEmpty pw []
      rw [hrun] at h
      simp only [List.isEmpty_cons] at h
      have : (refKeywords.any fun k => startsWith k []) = false := by decide
      rw [this] at h
      simp at h
  | cons c t ih =>
    intro pw pre
    rw [searchAux]
    have hrne := refRun_isEmpty pw (c :: t)
    have hrhs : (refKeywords.any fun k => containsSub k (c :: t)) =
        ((refKeywords.any fun k => startsWith k (c :: t)) ||
          (refKeywords.any fun k => containsSub k t)) := by
      rw [← list_any_or]
      rfl
    rcases hrun : run MAR_REF_LINE pw (c :: t) with _ | ⟨o, os⟩
    · rw [hrun] at hrne
      simp only [List.isEmpty_nil] at hrne
      have hsw : (refKeywords.any fun k => startsWith k (c :: t)) = false := by
        cases h : (refKeywords.any fun k => startsWith k (c :: t))
        · rfl
        · rw [h] at hrne; simp at hrne
      rw [hrhs, hsw, Bool.false_or]
      exact ih (pyWord c) (c :: pre)
    · rw [hrun] at hrne
      simp only [List.isEmpty_cons] at hrne
      have hsw : (refKeywords.any fun k => startsWith k (c :: t)) = true := by
        cases h : (refKeywords.any fun k => startsWith k (c :: t))
        · rw [h] at hrne; simp at hrne
        · rfl
      rw [hrhs, hsw, Bool.true_or]
      rfl

/-- Fuel-driven worker for `dedupFirst`. -/
def dedupFirstF : Nat → List (List Char) → List (List Char)
  | 0, l => l
  | _ + 1, [] => []
  | fuel + 1, x :: xs => x :: dedupFirstF fuel (xs.filter (fun y => !(y = x)))

/-- Specification-side deduplication: keep the first occurrence of each
string, deleting all later duplicates (first-occurrence order). -/
def dedupFirst (l : List (List Char)) : List (List Char) :=
  dedupFirstF (l.length + 1) l

/-- The fuel of `dedupFirstF` is irrelevant once it exceeds the length. -/
theorem dedupFirstF_congr : ∀ (f1 f2 : Nat) (l : List (List Char)),
    l.length < f1 → l.length < f2 → dedupFirstF f1 l = dedupFirstF f2 l := by
  intro f1
  induction f1 with
  | zero => intro f2 l h1; omega
  | succ f1 ih =>
    intro f2 l h1 h2
    cases f2 with
    | zero => omega
    | succ f2 =>
      cases l with
      | nil => rfl
      | cons x xs =>
        simp only [dedupFirstF, List.cons.injEq, true_and]
        have hlen : (xs.filter (fun y => !(y = x))).length ≤ xs.length :=
          List.length_filter_le _ _
        apply ih
        · simp only [List.length_cons] at h1; omega
        · simp only [List.length_cons] at h2; omega

/-- Unfolding equation of `dedupFirst`. -/
theorem dedupFirst_cons (x : List Char) (xs : List (List Char)) :
    dedupFirst (x :: xs) = x :: dedupFirst (xs.filter (fun y => !(y = x))) := by
  unfold dedupFirst
  simp only [List.length_cons, dedupFirstF]
  refine congrArg (x :: ·) ?_
  apply dedupFirstF_congr
  · have := List.length_filter_le (fun y => !(y = x)) xs
    omega
  · omega

/-- `dict.fromkeys` deduplication equals the specification-side one. -/
theorem pyDedupAux_eq (xs : List (List Char)) : ∀ (seen : List (List Char)),
    pyDedupAux seen xs = dedupFirst (xs.filter (fun y => !(seen.contains y))) := by
  induction xs with
  | nil => intro seen; rfl
  | cons x xs ih =>
    intro seen
    cases hx : seen.contains x with
    | true =>
      rw [pyDedupAux, if_pos hx, List.filter_cons, ih seen]
      rw [hx]
      simp
    | false =>
      rw [pyDedupAux, if_neg (by rw [hx]; exact Bool.false_ne_true), List.filter_cons]
      rw [hx]
      simp only [Bool.not_false, if_true]
      rw [dedupFirst_cons, ih (x :: seen)]
      refine congrArg (x :: ·) ?_
      refine congrArg dedupFirst ?_
      rw [List.filter_filter]
      apply List.filter_congr
      intro y _
      by_cases hy : y = x
      · subst hy
        simp [List.contains_cons]
      · have h1 : (y = x) = False := eq_false hy
        simp [List.contains_cons, h1, hy]

/-- `pyDedup` equals the specification-side `dedupFirst`. -/
theorem pyDedup_eq_dedupFirst (l : List (List Char)) : pyDedup l = dedupFirst l := by
  rw [pyDedup, pyDedupAux_eq]
  refine congrArg dedupFirst ?_
  apply List.filter_eq_self.mpr
  intro a _
  rfl

/-- The references field as the claim describes it: stripped keyword
lines, deduplicated by exact equality keeping first occurrences, then
capped at 8. -/
def refsSpec (t : List Char) : List (List Char) :=
  (dedupFirst (((splitlines t).filter
    (fun ln => refKeywords.any fun k => containsSub k ln)).map pyStrip)).take 8

/-- Claim C6: for every input text, the `refs` field is the sequence of
stripped lines containing a citation keyword, deduplicated by exact
string equality preserving first-occurrence order, then truncated to at
most 8 entries — deduplication before the cap. -/
theorem parse_refs_spec (t : List Char) :
    (parse_marathi_case t).refs = refsSpec t := by
  show (pyDedup (((splitlines t).filter
      (fun ln => (reSearch MAR_REF_LINE ln).isSome)).map pyStrip)).take 8 = _
  have hf : (splitlines t).filter (fun ln => (reSearch MAR_REF_LINE ln).isSome)
      = (splitlines t).filter
          (fun ln => refKeywords.any fun k => containsSub k ln) := by
    apply List.filter_congr
    intro ln _
    exact refSearch_eq_contains ln false []
  rw [hf, pyDedup_eq_dedupFirst]
  rfl

/-! ### Claim C8 — the parser never fails, only under-populates -/

/-- Claim C8: `parse_marathi_case` is a total function of its input (in
this embedding it is a plain function, mirroring that the source never
raises: every extraction is guarded by a search), and when no extraction
pattern matches — no identity, hearing-date, hearing-time or distance
match, no reference-keyword line, and the attendee phrase absent — every
string field is empty and both sequence fields are empty. -/
theorem parse_marathi_case_defaults (t : List Char)
    (h1 : reSearch MAR_CAND t = none)
    (h2 : reSearch MAR_HEAR t = none)
    (h3 : reSearch MAR_HEAR_TIME t = none)
    (h4 : reSearch MAR_DIST t = none)
    (h5 : containsSub (("उपस्थित होते").toList) t = false)
    (h6 : ∀ ln ∈ splitlines t, reSearch MAR_REF_LINE ln = none) :
    parse_marathi_case t = ⟨[], [], [], [], [], [], [], []⟩ := by
  unfold parse_marathi_case
  rw [h1, h2, h3, h4, h5]
  have hfil : (splitlines t).filter
      (fun ln => (reSearch MAR_REF_LINE ln).isSome) = [] := by
    rw [List.filter_eq_nil_iff]
    intro ln hln
    rw [h6 ln hln]
    simp
  rw [hfil]
  rfl

/-- Witness for C8 at the text `"hello"` (nothing matches). -/
theorem parse_marathi_case_defaults_witness :
    (reSearch MAR_CAND (("hello").toList) = none ∧
      containsSub (("उपस्थित होते").toList) (("hello").toList) = false) ∧
    parse_marathi_case (("hello").toList) = ⟨[], [], [], [], [], [], [], []⟩ :=
  ⟨by decide,
    parse_marathi_case_defaults (("hello").toList) (by decide) (by decide)
      (by decide) (by decide) (by decide) (by decide)⟩

/-! ### Claim C3 — hearing-time normalization -/

/-- A prefix of a prefix: `startsWith (u ++ v) l` entails `startsWith u l`. -/
theorem startsWith_append_left : ∀ (u v l : List Char),
    startsWith (u ++ v) l = true → startsWith u l = true := by
  intro u
  induction u with
  | nil => intro v l _; rfl
  | cons c us ih =>
    intro v l h
    cases l with
    | nil => simp [startsWith] at h
    | cons x t =>
      simp only [List.cons_append, startsWith, Bool.and_eq_true] at h ⊢
      exact ⟨h.1, ih v t h.2⟩

/-- The head of a `flatMap` is the head of the image of some element. -/
theorem head_flatMap {α β : Type} {f : α → List β} :
    ∀ {xs : List α} {y : β} {ys : List β},
      xs.flatMap f = y :: ys → ∃ x ∈ xs, ∃ ys', f x = y :: ys' := by
  intro xs
  induction xs with
  | nil => intro y ys h; simp at h
  | cons a t ih =>
    intro y ys h
    rw [List.flatMap_cons] at h
    cases hfa : f a with
    | nil =>
      rw [hfa, List.nil_append] at h
      obtain ⟨x, hx, hy⟩ := ih h
      exact ⟨x, List.mem_cons_of_mem a hx, hy⟩
    | cons b bs =>
      rw [hfa] at h
      rw [List.cons_append] at h
      injection h with h1 _
      exact ⟨a, List.mem_cons_self a t, bs, by rw [hfa, h1]⟩

/-- Structure of the first outcome of a sequence: the first outcome of the
left part for which the right part fires, paired with the right part's
first outcome there. -/
theorem run_seq_head {a b : RE} {pw : Bool} {l : List Char} {o : ROut}
    {os : List ROut} (h : run (.seq a b) pw l = o :: os) :
    ∃ o₁ ∈ run a pw l, ∃ o₂ os₂,
      run b (wnLast pw o₁.m) o₁.rest = o₂ :: os₂ ∧
      o = ⟨o₁.m ++ o₂.m, o₂.rest, o₁.caps ++ o₂.caps⟩ := by
  rw [run] at h
  obtain ⟨o₁, ho₁, ys', hmap⟩ := head_flatMap h
  cases hrb : run b (wnLast pw o₁.m) o₁.rest with
  | nil => rw [hrb] at hmap; simp at hmap
  | cons o₂ os₂ =>
    rw [hrb] at hmap
    rw [List.map_cons] at hmap
    injection hmap with h1 _
    exact ⟨o₁, ho₁, o₂, os₂, hrb, h1.symm⟩

/-- `searchAux` returns the head outcome of the run at the first position
where the pattern fires. -/
theorem searchAux_some_head {re : RE} : ∀ {pw : Bool} {pre l p : List Char}
    {o : ROut}, searchAux re pw pre l = some (p, o) →
    ∃ pw' l' os, run re pw' l' = o :: os := by
  intro pw pre l
  induction l generalizing pw pre with
  | nil =>
    intro p o h
    rw [searchAux] at h
    rcases hrun : run re pw [] with _ | ⟨o', os⟩
    · rw [hrun] at h; simp at h
    · rw [hrun] at h
      simp only [Option.some.injEq, Prod.mk.injEq] at h
      exact ⟨pw, [], os, by rw [hrun, h.2]⟩
  | cons c t ih =>
    intro p o h
    rw [searchAux] at h
    rcases hrun : run re pw (c :: t) with _ | ⟨o', os⟩
    · rw [hrun] at h
      exact ih h
    · rw [hrun] at h
      simp only [Option.some.injEq, Prod.mk.injEq] at h
      exact ⟨pw, c :: t, os, by rw [hrun, h.2]⟩

/-- The group numbers appearing in a pattern. -/
def grpNums : RE → List Nat
  | .grp n a => n :: grpNums a
  | .seq a b => grpNums a ++ grpNums b
  | .alt a b => grpNums a ++ grpNums b
  | _ => []

/-- Every capture key of an outcome is a group number of the pattern. -/
theorem run_caps_keys {re : RE} : ∀ {pw l} {o : ROut}, o ∈ run re pw l →
    ∀ pr ∈ o.caps, pr.1 ∈ grpNums re := by
  induction re with
  | eps => intro pw l o h pr hpr; simp [run] at h; subst h; simp at hpr
  | bnd =>
    intro pw l o h pr hpr
    simp only [run] at h
    split at h
    · simp at h; subst h; simp at hpr
    · simp at h
  | cls p =>
    intro pw l o h pr hpr
    match l with
    | [] => simp [run] at h
    | c :: t =>
      simp only [run] at h
      split at h
      · simp at h; subst h; simp at hpr
      · simp at h
  | seq a b iha ihb =>
    intro pw l o h pr hpr
    simp only [run, List.mem_flatMap, List.mem_map] at h
    obtain ⟨o₁, h₁, o₂, h₂, rfl⟩ := h
    simp only [List.mem_append] at hpr
    rw [grpNums, List.mem_append]
    rcases hpr with hpr | hpr
    · exact Or.inl (iha h₁ pr hpr)
    · exact Or.inr (ihb h₂ pr hpr)
  | alt a b iha ihb =>
    intro pw l o h pr hpr
    simp only [run, List.mem_append] at h
    rw [grpNums, List.mem_append]
    rcases h with h | h
    · exact Or.inl (iha h pr hpr)
    · exact Or.inr (ihb h pr hpr)
  | starCls p =>
    intro pw l o h pr hpr
    rw [(starOut_mem h).2.1] at hpr
    simp at hpr
  | grp n a iha =>
    intro pw l o h pr hpr
    simp only [run, List.mem_map] at h
    obtain ⟨o', h', rfl⟩ := h
    simp only [List.mem_append, List.mem_singleton] at hpr
    rw [grpNums]
    rcases hpr with hpr | hpr
    · exact List.mem_cons_of_mem n (iha h' pr hpr)
    · subst hpr; exact List.mem_cons_self n _

/-- The subpatterns of a pattern that are group `n`. -/
def grpSub : RE → Nat → List RE
  | .grp k a, n => (if k = n then [a] else []) ++ grpSub a n
  | .seq a b, n => grpSub a n ++ grpSub b n
  | .alt a b, n => grpSub a n ++ grpSub b n
  | _, _ => []

/-- Each captured value is the consumed text of an outcome of the
corresponding group subpattern. -/
theorem run_caps_grp {re : RE} : ∀ {pw l} {o : ROut} {n v}, o ∈ run re pw l →
    (n, v) ∈ o.caps →
    ∃ a ∈ grpSub re n, ∃ pw' l', ∃ o' : ROut, o' ∈ run a pw' l' ∧ o'.m = v := by
  induction re with
  | eps => intro pw l o n v h hpr; simp [run] at h; subst h; simp at hpr
  | bnd =>
    intro pw l o n v h hpr
    simp only [run] at h
    split at h
    · simp at h; subst h; simp at hpr
    · simp at h
  | cls p =>
    intro pw l o n v h hpr
    match l with
    | [] => simp [run] at h
    | c :: t =>
      simp only [run] at h
      split at h
      · simp at h; subst h; simp at hpr
      · simp at h
  | seq a b iha ihb =>
    intro pw l o n v h hpr
    simp only [run, List.mem_flatMap, List.mem_map] at h
    obtain ⟨o₁, h₁, o₂, h₂, rfl⟩ := h
    simp only [List.mem_append] at hpr
    rcases hpr with hpr | hpr
    · obtain ⟨x, hx, w⟩ := iha h₁ hpr
      exact ⟨x, by rw [grpSub]; exact List.mem_append_left _ hx, w⟩
    · obtain ⟨x, hx, w⟩ := ihb h₂ hpr
      exact ⟨x, by rw [grpSub]; exact List.mem_append_right _ hx, w⟩
  | alt a b iha ihb =>
    intro pw l o n v h hpr
    simp only [run, List.mem_append] at h
    rcases h with h | h
    · obtain ⟨x, hx, w⟩ := iha h hpr
      exact ⟨x, by rw [grpSub]; exact List.mem_append_left _ hx, w⟩
    · obtain ⟨x, hx, w⟩ := ihb h hpr
      exact ⟨x, by rw [grpSub]; exact List.mem_append_right _ hx, w⟩
  | starCls p =>
    intro pw l o n v h hpr
    rw [(starOut_mem h).2.1] at hpr
    simp at hpr
  | grp k a iha =>
    intro pw l o n v h hpr
    simp only [run, List.mem_map] at h
    obtain ⟨o', h', rfl⟩ := h
    simp only [List.mem_append, List.mem_singleton] at hpr
    rcases hpr with hpr | hpr
    · obtain ⟨x, hx, w⟩ := iha h' hpr
      refine ⟨x, ?_, w⟩
      rw [grpSub]
      exact List.mem_append_right _ hx
    · have hk : n = k := (Prod.mk.injEq .. ▸ hpr).1
      have hv : v = o'.m := (Prod.mk.injEq .. ▸ hpr).2
      refine ⟨a, ?_, pw, l, o', h', hv.symm⟩
      rw [grpSub, ← hk]
      simp

/-- The union of the character classes consumable by a pattern. -/
def reChars : RE → Char → Bool
  | .eps, _ => false
  | .bnd, _ => false
  | .cls p, c => p c
  | .seq a b, c => reChars a c || reChars b c
  | .alt a b, c => reChars a c || reChars b c
  | .starCls p, c => p c
  | .grp _ a, c => reChars a c

/-- Every consumed character satisfies some class of the pattern. -/
theorem run_mem_chars {re : RE} : ∀ {pw l} {o : ROut}, o ∈ run re pw l →
    ∀ c ∈ o.m, reChars re c = true := by
  induction re with
  | eps => intro pw l o h c hc; simp [run] at h; subst h; simp at hc
  | bnd =>
    intro pw l o h c hc
    simp only [run] at h
    split at h
    · simp at h; subst h; simp at hc
    · simp at h
  | cls p =>
    intro pw l o h c hc
    match l with
    | [] => simp [run] at h
    | x :: t =>
      simp only [run] at h
      split at h
      · rename_i hx
        simp at h; subst h
        simp only [List.mem_singleton] at hc
        subst hc
        exact hx
      · simp at h
  | seq a b iha ihb =>
    intro pw l o h c hc
    simp only [run, List.mem_flatMap, List.mem_map] at h
    obtain ⟨o₁, h₁, o₂, h₂, rfl⟩ := h
    simp only [List.mem_append] at hc
    rw [reChars]
    rcases hc with hc | hc
    · rw [iha h₁ c hc]; rfl
    · rw [ihb h₂ c hc]; simp
  | alt a b iha ihb =>
    intro pw l o h c hc
    simp only [run, List.mem_append] at h
    rw [reChars]
    rcases h with h | h
    · rw [iha h c hc]; rfl
    · rw [ihb h c hc]; simp
  | starCls p =>
    intro pw l o h c hc
    exact (starOut_mem h).2.2 c hc
  | grp n a iha =>
    intro pw l o h c hc
    simp only [run, List.mem_map] at h
    obtain ⟨o', h', rfl⟩ := h
    exact iha h' c hc

/-- Looking up a key past capture pairs that cannot carry it. -/
theorem lookup_append_of_keys (n : Nat) :
    ∀ (c₁ c₂ : List (Nat × List Char)), (∀ pr ∈ c₁, pr.1 ≠ n) →
      List.lookup n (c₁ ++ c₂) = List.lookup n c₂ := by
  intro c₁
  induction c₁ with
  | nil => intro c₂ _; rfl
  | cons kv c₁ ih =>
    intro c₂ h
    rw [List.cons_append, List.lookup]
    have : (n == kv.1) = false := by
      have := h kv (List.mem_cons_self _ _)
      simp [Ne.symm this]
    rw [this]
    exact ih c₂ (fun pr hpr => h pr (List.mem_cons_of_mem kv hpr))

/-- A successful lookup comes from a member pair. -/
theorem lookup_mem {n : Nat} : ∀ {l : List (Nat × List Char)} {v : List Char},
    List.lookup n l = some v → (n, v) ∈ l := by
  intro l
  induction l with
  | nil => intro v h; simp [List.lookup] at h
  | cons kv t ih =>
    intro v h
    rw [List.lookup] at h
    cases hk : (n == kv.1) with
    | true =>
      rw [hk] at h
      injection h with h1
      have hn : n = kv.1 := by simpa using hk
      rw [List.mem_cons]
      left
      rw [hn, ← h1]
    | false =>
      rw [hk] at h
      exact List.mem_cons_of_mem kv (ih h)

/-- Group 1 of `MAR_HEAR_TIME` (morning/evening word). -/
def mhtG1 : RE :=
  .grp 1 (.alt (strRE (("सकाळी").toList)) (strRE (("सायंकाळी").toList)))

/-- Group 2 of `MAR_HEAR_TIME` (the numeral, with optional decimal). -/
def mhtG2 : RE :=
  .grp 2 (.seq (rep12 devAsciiDigit)
    (optRE (.grp 3 (.seq (chrRE '.') (plusCls asciiDigit)))))

/-- Group 4 of `MAR_HEAR_TIME` (the time-unit word). -/
def mhtG4 : RE :=
  .grp 4 (.alt (strRE (("वा").toList)) (strRE (("वाजता").toList)))

/-- `MAR_HEAR_TIME` as a nested sequence of its parts. -/
theorem MHT_eq :
    MAR_HEAR_TIME = .seq mhtG1 (.seq sStar (.seq mhtG2 (.seq sStar mhtG4))) :=
  rfl

/-- The first outcome of the time-unit group always captures `वा`: the
`वा` branch of the alternation is tried first and matches whenever the
`वाजता` branch would (the latter has the former as a prefix). -/
theorem mhtG4_head {pw : Bool} {l : List Char} {o : ROut} {os : List ROut}
    (h : run mhtG4 pw l = o :: os) : o.caps = [(4, ("वा").toList)] := by
  have e1 := run_strRE (("वा").toList) pw l
  have e2 := run_strRE (("वाजता").toList) pw l
  rw [mhtG4, run, run, e1, e2] at h
  by_cases hs1 : startsWith (("वा").toList) l
  · rw [if_pos hs1] at h
    rw [List.cons_append, List.map_cons] at h
    injection h with h1 _
    rw [← h1]
    rfl
  · rw [if_neg hs1] at h
    by_cases hs2 : startsWith (("वाजता").toList) l
    · exfalso
      apply hs1
      have hsplit : ("वाजता").toList = ("वा").toList ++ ("जता").toList := by decide
      exact startsWith_append_left _ _ l (by rw [← hsplit]; exact hs2)
    · rw [if_neg hs2] at h
      simp at h

/-- The fuel of `pyReplaceF` is irrelevant once it exceeds the length. -/
theorem pyReplaceF_congr (old new : List Char) :
    ∀ (f1 f2 : Nat) (l : List Char), l.length < f1 → l.length < f2 →
      pyReplaceF old new f1 l = pyReplaceF old new f2 l := by
  intro f1
  induction f1 with
  | zero => intro f2 l h1; omega
  | succ f1 ih =>
    intro f2 l h1 h2
    cases f2 with
    | zero => omega
    | succ f2 =>
      cases l with
      | nil => rfl
      | cons c t =>
        simp only [pyReplaceF]
        by_cases hsw : startsWith old (c :: t)
        · rw [if_pos hsw, if_pos hsw]
          refine congrArg (new ++ ·) ?_
          apply ih
          · have := List.length_drop (old.length - 1) t
            simp only [List.length_cons] at h1
            omega
          · have := List.length_drop (old.length - 1) t
            simp only [List.length_cons] at h2
            omega
        · rw [if_neg hsw, if_neg hsw]
          refine congrArg (c :: ·) ?_
          apply ih
          · simp only [List.length_cons] at h1; omega
          · simp only [List.length_cons] at h2; omega

/-- Unfolding equation of `pyReplace` on a cons cell. -/
theorem pyReplace_cons (old new : List Char) (c : Char) (t : List Char) :
    pyReplace old new (c :: t) =
      if startsWith old (c :: t) then
        new ++ pyReplace old new (t.drop (old.length - 1))
      else c :: pyReplace old new t := by
  unfold pyReplace
  simp only [List.length_cons, pyReplaceF]
  by_cases hsw : startsWith old (c :: t)
  · rw [if_pos hsw, if_pos hsw]
    refine congrArg (new ++ ·) ?_
    apply pyReplaceF_congr
    · have := List.length_drop (old.length - 1) t
      omega
    · omega
  · rw [if_neg hsw, if_neg hsw]

/-- `replace("वा","वाजता")` on a numeral followed by `" वा"`: the numeral
contains no `व`, so only the final suffix is replaced. -/
theorem pyReplace_va (g : List Char) (hg : ∀ c ∈ g, ¬ c = 'व') :
    pyReplace (("वा").toList) (("वाजता").toList) (g ++ ' ' :: ("वा").toList) =
      g ++ ' ' :: ("वाजता").toList := by
  induction g with
  | nil => decide
  | cons c g' ih =>
    rw [List.cons_append, pyReplace_cons]
    have hc : ¬ c = 'व' := hg c (List.mem_cons_self _ _)
    have hsw : startsWith (("वा").toList) (c :: (g' ++ ' ' :: ("वा").toList)) = false := by
      show startsWith ('व' :: ("ा").toList) _ = false
      rw [startsWith]
      have : (('व' : Char) = c) = False := eq_false (fun h => hc (Eq.symm h))
      simp [this]
    rw [hsw]
    simp only [Bool.false_eq_true, if_false, List.cons_append]
    refine congrArg (c :: ·) ?_
    exact ih (fun x hx => hg x (List.mem_cons_of_mem c hx))

/-- The body of group 2 of `MAR_HEAR_TIME`. -/
def mhtG2Body : RE :=
  .seq (rep12 devAsciiDigit)
    (optRE (.grp 3 (.seq (chrRE '.') (plusCls asciiDigit))))

/-- Claim C3: whenever the hearing-time pattern matches, `hearing_time` is
the captured numeral followed by a space and the normalized suffix
`वाजता` — the same normalized suffix for both unit-word variants (the
engine always captures `वा` for group 4, since that alternative is tried
first and matches whenever `वाजता` does). -/
theorem parse_hearing_time_normalized (t : List Char) (p : List Char) (o : ROut)
    (h : reSearch MAR_HEAR_TIME t = some (p, o)) :
    (parse_marathi_case t).hearing_time =
      capGet o 2 ++ ' ' :: ("वाजता").toList := by
  have hfield : (parse_marathi_case t).hearing_time =
      pyReplace (("वा").toList) (("वाजता").toList)
        (capGet o 2 ++ ' ' :: capGet o 4) := by
    unfold parse_marathi_case
    rw [h]
  obtain ⟨pw', l', os, hrun0⟩ := searchAux_some_head h
  have hrun : run (.seq mhtG1 (.seq sStar (.seq mhtG2 (.seq sStar mhtG4))))
      pw' l' = o :: os := by rw [← MHT_eq]; exact hrun0
  obtain ⟨o₁, h₁, o₂, os₂, hrun₂, ho⟩ := run_seq_head hrun
  obtain ⟨o₃, h₃, o₄, os₄, hrun₄, ho₂⟩ := run_seq_head hrun₂
  obtain ⟨o₅, h₅, o₆, os₆, hrun₆, ho₄⟩ := run_seq_head hrun₄
  obtain ⟨o₇, h₇, o₈, os₈, hrun₈, ho₆⟩ := run_seq_head hrun₆
  have hc4 : o₈.caps = [(4, ("वा").toList)] := mhtG4_head hrun₈
  have hk1 : ∀ pr ∈ o₁.caps, pr.1 ≠ 4 := by
    intro pr hpr
    have hmem := run_caps_keys h₁ pr hpr
    rw [show grpNums mhtG1 = [1] from rfl] at hmem
    simp at hmem
    omega
  have hk3 : ∀ pr ∈ o₃.caps, pr.1 ≠ 4 := by
    intro pr hpr
    have hmem := run_caps_keys h₃ pr hpr
    rw [show grpNums sStar = [] from rfl] at hmem
    simp at hmem
  have hk5 : ∀ pr ∈ o₅.caps, pr.1 ≠ 4 := by
    intro pr hpr
    have hmem := run_caps_keys h₅ pr hpr
    rw [show grpNums mhtG2 = [2, 3] from rfl] at hmem
    simp at hmem
    omega
  have hk7 : ∀ pr ∈ o₇.caps, pr.1 ≠ 4 := by
    intro pr hpr
    have hmem := run_caps_keys h₇ pr hpr
    rw [show grpNums sStar = [] from rfl] at hmem
    simp at hmem
  have e0 : o.caps = o₁.caps ++ o₂.caps := by rw [ho]
  have e2 : o₂.caps = o₃.caps ++ o₄.caps := by rw [ho₂]
  have e4 : o₄.caps = o₅.caps ++ o₆.caps := by rw [ho₄]
  have e6 : o₆.caps = o₇.caps ++ o₈.caps := by rw [ho₆]
  have hcap4 : capGet o 4 = ("वा").toList := by
    unfold capGet
    rw [e0, e2, e4, e6, lookup_append_of_keys 4 _ _ hk1,
      lookup_append_of_keys 4 _ _ hk3, lookup_append_of_keys 4 _ _ hk5,
      lookup_append_of_keys 4 _ _ hk7, hc4]
    rfl
  have hg2 : ∀ c ∈ capGet o 2, ¬ c = 'व' := by
    unfold capGet
    cases hlk : List.lookup 2 o.caps with
    | none => simp
    | some v =>
      simp only [Option.getD_some]
      intro c hc
      have hmem := lookup_mem hlk
      have homem : o ∈ run (.seq mhtG1 (.seq sStar (.seq mhtG2
          (.seq sStar mhtG4)))) pw' l' := by
        rw [hrun]
        exact List.mem_cons_self _ _
      obtain ⟨a, ha, pw'', l'', o', ho', hm⟩ := run_caps_grp homem hmem
      rw [show grpSub (.seq mhtG1 (.seq sStar (.seq mhtG2 (.seq sStar mhtG4)))) 2
        = [mhtG2Body] from rfl] at ha
      simp only [List.mem_singleton] at ha
      subst ha
      have hchar := run_mem_chars ho' c (by rw [hm]; exact hc)
      intro hcv
      subst hcv
      rw [show reChars mhtG2Body 'व' = false from by decide] at hchar
      exact absurd hchar (by simp)
  rw [hfield, hcap4]
  exact pyReplace_va _ hg2

/-- The outcome of the C3 witness search. -/
def c3wOut : ROut :=
  ⟨("सकाळी ११ वा").toList, ("जता").toList,
   [(1, ("सकाळी").toList), (2, ("११").toList), (4, ("वा").toList)]⟩

/-- Witness for C3 at the text `"सकाळी ११ वाजता"`. -/
theorem parse_hearing_time_normalized_witness :
    reSearch MAR_HEAR_TIME (("सकाळी ११ वाजता").toList) = some ([], c3wOut) ∧
    (parse_marathi_case (("सकाळी ११ वाजता").toList)).hearing_time =
      ("११ वाजता").toList := by
  refine ⟨by decide, ?_⟩
  have := parse_hearing_time_normalized (("सकाळी ११ वाजता").toList) [] c3wOut
    (by decide)
  rw [this]
  decide

/-! ### Claim C5 — idempotence of the redactor

Strategy: `red` applies three `re.sub` passes (Aadhaar, PAN, mobile).  We
show that the final string is a fixed point of each pass: no Aadhaar or
mobile pattern fires anywhere in `red s`, and every PAN fire in `red s`
consumes exactly the PAN mask (which the PAN pass replaces by itself).
The key invariants are preserved because every mask is a word-character
block flanked by the boundaries of the replaced match, masks contain no
digits adjacent to their edges, and an engine run depends only on the
consumed characters and the word-ness of the neighbouring ones. -/

/-- Membership characterization: `eps`. -/
theorem run_eps_mem {pw : Bool} {l : List Char} {o : ROut} :
    o ∈ run .eps pw l ↔ o = ⟨[], l, []⟩ := by
  simp [run]

/-- Membership characterization: `bnd`. -/
theorem run_bnd_mem {pw : Bool} {l : List Char} {o : ROut} :
    o ∈ run .bnd pw l ↔ ((pw != wnHead l) = true ∧ o = ⟨[], l, []⟩) := by
  simp only [run]
  split
  · rename_i h
    simp [h]
  · rename_i h
    simp only [Bool.not_eq_true] at h
    simp [h]

/-- Membership characterization: a character class. -/
theorem run_cls_mem {p : Char → Bool} {pw : Bool} {l : List Char} {o : ROut} :
    o ∈ run (.cls p) pw l ↔
      ∃ c t, l = c :: t ∧ p c = true ∧ o = ⟨[c], t, []⟩ := by
  cases l with
  | nil => simp [run]
  | cons c t =>
    simp only [run]
    split
    · rename_i h
      simp only [List.mem_singleton]
      constructor
      · intro ho; exact ⟨c, t, rfl, h, ho⟩
      · rintro ⟨c', t', heq, _, ho⟩
        injection heq with h1 h2
        subst h1; subst h2; exact ho
    · rename_i h
      simp only [List.not_mem_nil, false_iff, not_exists]
      rintro c' t' ⟨heq, hp, _⟩
      injection heq with h1 h2
      subst h1
      exact h hp

/-- Membership characterization: sequencing. -/
theorem run_seq_mem {a b : RE} {pw : Bool} {l : List Char} {o : ROut} :
    o ∈ run (.seq a b) pw l ↔
      ∃ o₁, o₁ ∈ run a pw l ∧ ∃ o₂, o₂ ∈ run b (wnLast pw o₁.m) o₁.rest ∧
        o = ⟨o₁.m ++ o₂.m, o₂.rest, o₁.caps ++ o₂.caps⟩ := by
  simp only [run, List.mem_flatMap, List.mem_map]
  constructor
  · rintro ⟨o₁, h₁, o₂, h₂, rfl⟩
    exact ⟨o₁, h₁, o₂, h₂, rfl⟩
  · rintro ⟨o₁, h₁, o₂, h₂, rfl⟩
    exact ⟨o₁, h₁, o₂, h₂, rfl⟩

/-- Membership characterization: alternation. -/
theorem run_alt_mem {a b : RE} {pw : Bool} {l : List Char} {o : ROut} :
    o ∈ run (.alt a b) pw l ↔ o ∈ run a pw l ∨ o ∈ run b pw l := by
  simp [run]

/-- Membership characterization: groups. -/
theorem run_grp_mem {n : Nat} {a : RE} {pw : Bool} {l : List Char} {o : ROut} :
    o ∈ run (.grp n a) pw l ↔
      ∃ o', o' ∈ run a pw l ∧ o = ⟨o'.m, o'.rest, o'.caps ++ [(n, o'.m)]⟩ := by
  simp only [run, List.mem_map]
  constructor
  · rintro ⟨o', h', rfl⟩; exact ⟨o', h', rfl⟩
  · rintro ⟨o', h', rfl⟩; exact ⟨o', h', rfl⟩

/-- Membership characterization: greedy star over a class. -/
theorem starOut_mem_iff {p : Char → Bool} {pw : Bool} {l : List Char} {o : ROut} :
    o ∈ starOut p pw l ↔
      (o.m ++ o.rest = l ∧ o.caps = [] ∧ ∀ c ∈ o.m, p c = true) := by
  constructor
  · exact starOut_mem
  · rintro ⟨hsplit, hcaps, hchars⟩
    obtain ⟨m, r, caps⟩ := o
    simp only at hsplit hcaps hchars
    subst hcaps
    subst hsplit
    induction m generalizing pw with
    | nil =>
      cases r with
      | nil => simp [starOut]
      | cons c t =>
        simp only [starOut, List.nil_append]
        split <;> simp
    | cons c m' ih =>
      have hc : p c = true := hchars c (List.mem_cons_self _ _)
      simp only [List.cons_append, starOut, hc, if_true, List.mem_append,
        List.mem_map]
      left
      refine ⟨⟨m', r, []⟩, ?_, rfl⟩
      exact ih (fun x hx => hchars x (List.mem_cons_of_mem c hx))

/-- `wnLast` ignores the default on a non-empty list. -/
theorem wnLast_ne_nil {m : List Char} (h : m ≠ []) (a b : Bool) :
    wnLast a m = wnLast b m := by
  induction m with
  | nil => exact absurd rfl h
  | cons c m' ih =>
    cases m' with
    | nil => rfl
    | cons d m'' =>
      show wnLast a (d :: m'') = wnLast b (d :: m'')
      exact ih (by simp)

/-- `wnLast` steps through a cons. -/
theorem wnLast_cons (pw : Bool) (c : Char) (m : List Char) :
    wnLast pw (c :: m) = wnLast (pyWord c) m := by
  cases m with
  | nil => rfl
  | cons d m' =>
    show wnLast pw (d :: m') = wnLast (pyWord c) (d :: m')
    exact wnLast_ne_nil (by simp) pw (pyWord c)

/-- `wnLast` distributes over append. -/
theorem wnLast_append (pw : Bool) (u v : List Char) :
    wnLast pw (u ++ v) = wnLast (wnLast pw u) v := by
  induction u generalizing pw with
  | nil => rfl
  | cons c u' ih =>
    rw [List.cons_append, wnLast_cons, ih, wnLast_cons]

/-- An engine run depends only on the consumed characters and the
word-ness of the first remaining one: an outcome transfers to any other
continuation with the same head word-ness. -/
theorem run_transfer {re : RE} : ∀ {pw : Bool} {m r₁ r₂ caps},
    wnHead r₁ = wnHead r₂ →
    (⟨m, r₁, caps⟩ : ROut) ∈ run re pw (m ++ r₁) →
    (⟨m, r₂, caps⟩ : ROut) ∈ run re pw (m ++ r₂) := by
  induction re with
  | eps =>
    intro pw m r₁ r₂ caps hw h
    rw [run_eps_mem] at h
    simp only [ROut.mk.injEq] at h
    obtain ⟨hm, _, hc⟩ := h
    subst hm; subst hc
    rw [run_eps_mem]
    simp
  | bnd =>
    intro pw m r₁ r₂ caps hw h
    rw [run_bnd_mem] at h
    obtain ⟨hb, h⟩ := h
    simp only [ROut.mk.injEq] at h
    obtain ⟨hm, _, hc⟩ := h
    subst hm; subst hc
    rw [run_bnd_mem]
    simp only [List.nil_append] at hb ⊢
    rw [← hw]
    exact ⟨hb, by simp⟩
  | cls p =>
    intro pw m r₁ r₂ caps hw h
    rw [run_cls_mem] at h
    obtain ⟨c, t, hl, hp, h⟩ := h
    simp only [ROut.mk.injEq] at h
    obtain ⟨hm, hr, hc⟩ := h
    subst hm; subst hc
    rw [run_cls_mem]
    exact ⟨c, r₂, rfl, hp, rfl⟩
  | seq a b iha ihb =>
    intro pw m r₁ r₂ caps hw h
    rw [run_seq_mem] at h
    obtain ⟨o₁, h₁, o₂, h₂, heq⟩ := h
    obtain ⟨m₁, s₁, c₁⟩ := o₁
    obtain ⟨m₂, s₂, c₂⟩ := o₂
    simp only [ROut.mk.injEq] at heq
    obtain ⟨hm, hr, hc⟩ := heq
    subst hm; subst hc
    simp only at h₁ h₂
    subst hr
    have hs₁ : s₁ = m₂ ++ r₁ := by
      have hsp := run_split h₁
      simp only at hsp
      rw [List.append_assoc] at hsp
      exact List.append_cancel_left hsp
    subst hs₁
    have hw' : wnHead (m₂ ++ r₁) = wnHead (m₂ ++ r₂) := by
      cases m₂ with
      | nil => exact hw
      | cons x xs => rfl
    rw [List.append_assoc] at h₁
    have ha' := iha hw' h₁
    have hb' := ihb hw h₂
    rw [run_seq_mem]
    refine ⟨⟨m₁, m₂ ++ r₂, c₁⟩, ?_, ⟨m₂, r₂, c₂⟩, hb', rfl⟩
    rw [List.append_assoc]
    exact ha'
  | alt a b iha ihb =>
    intro pw m r₁ r₂ caps hw h
    rw [run_alt_mem] at h ⊢
    rcases h with h | h
    · exact Or.inl (iha hw h)
    · exact Or.inr (ihb hw h)
  | starCls p =>
    intro pw m r₁ r₂ caps hw h
    have hfacts := starOut_mem_iff.mp h
    obtain ⟨_, hcaps, hchars⟩ := hfacts
    subst hcaps
    exact starOut_mem_iff.mpr ⟨rfl, rfl, hchars⟩
  | grp n a iha =>
    intro pw m r₁ r₂ caps hw h
    rw [run_grp_mem] at h
    obtain ⟨o', h', heq⟩ := h
    obtain ⟨m', s', c'⟩ := o'
    simp only [ROut.mk.injEq] at heq
    obtain ⟨hm, hr, hc⟩ := heq
    subst hm; subst hc
    subst hr
    have ha' := iha hw h'
    rw [run_grp_mem]
    exact ⟨⟨m, r₂, c'⟩, ha', rfl⟩

/-- Scan states reachable from `(pw, l)` by stepping over characters, as
the search loop of `re.sub` does. -/
inductive Reach : Bool → List Char → Bool → List Char → Prop where
  | refl (pw : Bool) (l : List Char) : Reach pw l pw l
  | step {pw : Bool} {c : Char} {t : List Char} {pw' : Bool} {suf : List Char} :
      Reach (pyWord c) t pw' suf → Reach pw (c :: t) pw' suf

/-- Reach composes. -/
theorem Reach.trans {pw l pw' suf pw'' suf''} (h1 : Reach pw l pw' suf)
    (h2 : Reach pw' suf pw'' suf'') : Reach pw l pw'' suf'' := by
  induction h1 with
  | refl => exact h2
  | step _ ih => exact Reach.step (ih h2)

/-- The state after scanning `j` characters of a known prefix is reachable. -/
theorem Reach_mid : ∀ (u v : List Char) (pw : Bool) (j : Nat), j ≤ u.length →
    Reach pw (u ++ v) (wnLast pw (u.take j)) (u.drop j ++ v) := by
  intro u
  induction u with
  | nil =>
    intro v pw j hj
    have hz : j = 0 := by simpa using hj
    subst hz
    simpa using Reach.refl pw v
  | cons c u' ih =>
    intro v pw j hj
    cases j with
    | zero => simpa using Reach.refl pw ((c :: u') ++ v)
    | succ j' =>
      have h := ih v (pyWord c) j' (by simpa using hj)
      simp only [List.take_succ_cons, List.drop_succ_cons, wnLast_cons]
      exact Reach.step h

/-- The state after a full prefix is reachable. -/
theorem Reach_through (u v : List Char) (pw : Bool) :
    Reach pw (u ++ v) (wnLast pw u) v := by
  have := Reach_mid u v pw u.length le_rfl
  simpa using this

/-- A state reached inside an append is either inside the first part (at
some offset `j`) or reached from the second part. -/
theorem Reach_append_cases {u v : List Char} {pw pw' : Bool} {suf : List Char}
    (h : Reach pw (u ++ v) pw' suf) :
    (∃ j, j < u.length ∧ pw' = wnLast pw (u.take j) ∧ suf = u.drop j ++ v) ∨
      Reach (wnLast pw u) v pw' suf := by
  induction u generalizing pw with
  | nil => right; simpa using h
  | cons c u' ih =>
    cases h with
    | refl =>
      left
      exact ⟨0, by simp, by simp [wnLast], by simp⟩
    | step h' =>
      rcases ih h' with ⟨j, hj, hpw, hsuf⟩ | hr
      · left
        refine ⟨j + 1, by simpa using hj, ?_, ?_⟩
        · rw [List.take_succ_cons, wnLast_cons]
          exact hpw
        · rw [List.drop_succ_cons]
          exact hsuf
      · right
        rwa [wnLast_cons]

/-- When `searchAux` fails, no reachable state fires. -/
theorem searchAux_none_states {re : RE} : ∀ {pw : Bool} {pre l : List Char},
    searchAux re pw pre l = none → ∀ {pw' suf}, Reach pw l pw' suf →
      run re pw' suf = [] := by
  intro pw pre l
  induction l generalizing pw pre with
  | nil =>
    intro h pw' suf hr
    cases hr with
    | refl =>
      rw [searchAux] at h
      rcases hrun : run re pw [] with _ | ⟨o, os⟩
      · rfl
      · rw [hrun] at h; simp at h
  | cons c t ih =>
    intro h pw' suf hr
    rw [searchAux] at h
    rcases hrun : run re pw (c :: t) with _ | ⟨o, os⟩
    · rw [hrun] at h
      cases hr with
      | refl => exact hrun
      | step h' => exact ih h h'
    · rw [hrun] at h; simp at h

/-- Full description of a successful `searchAux`: the text before the
match, the firing run at the match position with the chained word-ness,
and the absence of a fire at every earlier position. -/
theorem searchAux_some_full {re : RE} : ∀ {pw : Bool} {pre l p : List Char}
    {o : ROut}, searchAux re pw pre l = some (p, o) →
    ∃ pre' os, p = pre.reverse ++ pre' ∧ l = pre' ++ (o.m ++ o.rest) ∧
      run re (wnLast pw pre') (o.m ++ o.rest) = o :: os ∧
      (∀ j < pre'.length,
        run re (wnLast pw (pre'.take j)) (pre'.drop j ++ (o.m ++ o.rest)) = []) := by
  intro pw pre l
  induction l generalizing pw pre with
  | nil =>
    intro p o h
    rw [searchAux] at h
    rcases hrun : run re pw [] with _ | ⟨o', os⟩
    · rw [hrun] at h; simp at h
    · rw [hrun] at h
      simp only [Option.some.injEq, Prod.mk.injEq] at h
      obtain ⟨hp, ho⟩ := h
      subst ho
      have hsp : o'.m ++ o'.rest = [] :=
        run_split (by rw [hrun]; exact List.mem_cons_self _ _)
      refine ⟨[], os, by rw [← hp]; simp, by simp [hsp], ?_, ?_⟩
      · rw [hsp]
        exact hrun
      · intro j hj; simp at hj
  | cons c t ih =>
    intro p o h
    rw [searchAux] at h
    rcases hrun : run re pw (c :: t) with _ | ⟨o', os⟩
    · rw [hrun] at h
      obtain ⟨pre', os, hp, hl, hrun', hnone⟩ := ih h
      refine ⟨c :: pre', os, ?_, by rw [List.cons_append, ← hl], ?_, ?_⟩
      · rw [hp]
        simp
      · rw [wnLast_cons]
        exact hrun'
      · intro j hj
        cases j with
        | zero =>
          simp only [List.take_zero, List.drop_zero, List.cons_append]
          show run re (wnLast pw []) (c :: (pre' ++ (o.m ++ o.rest))) = []
          rw [← hl]
          exact hrun
        | succ j' =>
          simp only [List.take_succ_cons, List.drop_succ_cons, wnLast_cons]
          exact hnone j' (by simpa using hj)
    · rw [hrun] at h
      simp only [Option.some.injEq, Prod.mk.injEq] at h
      obtain ⟨hp, ho⟩ := h
      subst ho
      have hsp : o'.m ++ o'.rest = c :: t :=
        run_split (by rw [hrun]; exact List.mem_cons_self _ _)
      refine ⟨[], os, by rw [← hp]; simp, by simp [hsp], ?_, ?_⟩
      · rw [hsp]
        exact hrun
      · intro j hj; simp at hj

/-- The fuel of `subAllF` is irrelevant once it exceeds the length. -/
theorem subAllF_congr (re : RE) (repl : List Char) :
    ∀ (f1 f2 : Nat) (pw : Bool) (l : List Char), l.length < f1 →
      l.length < f2 → subAllF re repl f1 pw l = subAllF re repl f2 pw l := by
  intro f1
  induction f1 with
  | zero => intro f2 pw l h1; omega
  | succ f1 ih =>
    intro f2 pw l h1 h2
    cases f2 with
    | zero => omega
    | succ f2 =>
      rw [subAllF, subAllF]
      cases hs : searchAux re pw [] l with
      | none => rfl
      | some po =>
        obtain ⟨pre, om, orest, ocaps⟩ := po
        have hsplit := searchAux_split hs
        simp only [List.reverse_nil, List.nil_append] at hsplit
        have hlen := congrArg List.length hsplit
        simp only [List.length_append] at hlen
        cases om with
        | nil =>
          cases orest with
          | nil => rfl
          | cons c t =>
            show pre ++ repl ++ c :: subAllF re repl f1 (pyWord c) t =
                 pre ++ repl ++ c :: subAllF re repl f2 (pyWord c) t
            simp only [List.length_nil, List.length_cons] at hlen
            rw [ih f2 (pyWord c) t (by omega) (by omega)]
        | cons m0 ms =>
          show pre ++ repl ++ subAllF re repl f1 (wnLast pw (m0 :: ms)) orest =
               pre ++ repl ++ subAllF re repl f2 (wnLast pw (m0 :: ms)) orest
          simp only [List.length_cons] at hlen
          rw [ih f2 (wnLast pw (m0 :: ms)) orest (by omega) (by omega)]

/-- `subAll` when the pattern fires nowhere. -/
theorem subAll_none {re : RE} {repl : List Char} {pw : Bool} {l : List Char}
    (h : searchAux re pw [] l = none) : subAll re repl pw l = l := by
  unfold subAll
  rw [subAllF, h]

/-- `subAll` when the pattern fires with a non-empty match. -/
theorem subAll_some_pos {re : RE} {repl : List Char} {pw : Bool}
    {l pre : List Char} {o : ROut} (h : searchAux re pw [] l = some (pre, o))
    (hm : o.m ≠ []) :
    subAll re repl pw l =
      pre ++ repl ++ subAll re repl (wnLast pw o.m) o.rest := by
  unfold subAll
  rw [subAllF, h]
  obtain ⟨om, orest, ocaps⟩ := o
  have hsplit := searchAux_split h
  simp only [List.reverse_nil, List.nil_append] at hsplit
  have hlen := congrArg List.length hsplit
  simp only [List.length_append] at hlen
  cases om with
  | nil => exact absurd rfl hm
  | cons m0 ms =>
    show pre ++ repl ++ subAllF re repl l.length (wnLast pw (m0 :: ms)) orest =
         pre ++ repl ++ subAllF re repl (orest.length + 1) (wnLast pw (m0 :: ms)) orest
    simp only [List.length_cons] at hlen
    rw [subAllF_congr re repl l.length (orest.length + 1)
      (wnLast pw (m0 :: ms)) orest (by omega) (by omega)]

/-- Digits are word characters. -/
theorem pyWord_of_pyDigit {c : Char} (h : pyDigit c = true) : pyWord c = true := by
  rw [pyDigit, Bool.or_eq_true] at h
  rw [pyWord]
  rcases h with h | h
  · simp [h]
  · simp only [Bool.and_eq_true, decide_eq_true_eq] at h
    have h1 : (0x900 ≤ c.toNat && c.toNat ≤ 0x97F) = true := by
      simp only [Bool.and_eq_true, decide_eq_true_eq]
      omega
    simp [h1]

/-- ASCII capitals are word characters. -/
theorem pyWord_of_upAZ {c : Char} (h : upAZ c = true) : pyWord c = true := by
  rw [upAZ] at h
  rw [pyWord]
  simp [h]

/-- `[6-9]` characters are digits. -/
theorem pyDigit_of_digit69 {c : Char} (h : digit69 c = true) : pyDigit c = true := by
  rw [digit69, Bool.and_eq_true, decide_eq_true_eq, decide_eq_true_eq] at h
  rw [pyDigit]
  have h1 : ('0' ≤ c && c ≤ '9') = true := by
    rw [Bool.and_eq_true, decide_eq_true_eq, decide_eq_true_eq]
    exact ⟨le_trans (by decide) h.1, h.2⟩
  simp [h1]

/-- A leading `\b` just constrains the boundary. -/
theorem run_seq_bnd_mem {X : RE} {pw : Bool} {l : List Char} {o : ROut} :
    o ∈ run (.seq .bnd X) pw l ↔
      ((pw != wnHead l) = true ∧ o ∈ run X pw l) := by
  rw [run_seq_mem]
  constructor
  · rintro ⟨o₁, h₁, o₂, h₂, rfl⟩
    rw [run_bnd_mem] at h₁
    obtain ⟨hb, rfl⟩ := h₁
    refine ⟨hb, ?_⟩
    have he : ({ m := [] ++ o₂.m, rest := o₂.rest, caps := [] ++ o₂.caps } : ROut)
        = o₂ := by simp
    rw [he]
    exact h₂
  · rintro ⟨hb, h⟩
    refine ⟨⟨[], l, []⟩, ?_, o, h, by simp⟩
    rw [run_bnd_mem]
    exact ⟨hb, rfl⟩

/-- Stepping over a leading character class. -/
theorem run_seq_cls_head {p : Char → Bool} {X : RE} {pw : Bool} {l : List Char}
    {o : ROut} (h : o ∈ run (.seq (.cls p) X) pw l) :
    ∃ c t, l = c :: t ∧ p c = true ∧
      ∃ o₂, o₂ ∈ run X (pyWord c) t ∧ o = ⟨c :: o₂.m, o₂.rest, o₂.caps⟩ := by
  rw [run_seq_mem] at h
  obtain ⟨o₁, h₁, o₂, h₂, rfl⟩ := h
  rw [run_cls_mem] at h₁
  obtain ⟨c, t, rfl, hp, rfl⟩ := h₁
  exact ⟨c, t, rfl, hp, o₂, h₂, by simp [wnLast]⟩

/-- A final class followed by `\b`. -/
theorem run_seq_cls_bnd {p : Char → Bool} {pw : Bool} {l : List Char} {o : ROut}
    (h : o ∈ run (.seq (.cls p) .bnd) pw l) :
    ∃ c t, l = c :: t ∧ p c = true ∧ ((pyWord c != wnHead t) = true) ∧
      o = ⟨[c], t, []⟩ := by
  obtain ⟨c, t, rfl, hp, o₂, h₂, rfl⟩ := run_seq_cls_head h
  rw [run_bnd_mem] at h₂
  obtain ⟨hb, rfl⟩ := h₂
  exact ⟨c, t, rfl, hp, hb, rfl⟩

/-- Inversion for the four-digit block `d4RE`. -/
theorem d4_inv {pw : Bool} {l : List Char} {o : ROut}
    (h : o ∈ run d4RE pw l) :
    ∃ c1 c2 c3 c4 t, l = c1 :: c2 :: c3 :: c4 :: t ∧
      o = ⟨[c1, c2, c3, c4], t, []⟩ ∧
      pyDigit c1 = true ∧ pyDigit c2 = true ∧ pyDigit c3 = true ∧
      pyDigit c4 = true := by
  obtain ⟨c1, t1, rfl, h1, o2, h2', rfl⟩ := run_seq_cls_head (X := .seq (.cls pyDigit) (.seq (.cls pyDigit) (.cls pyDigit))) h
  obtain ⟨c2, t2, rfl, h2, o3, h3', rfl⟩ := run_seq_cls_head h2'
  obtain ⟨c3, t3, rfl, h3, o4, h4', rfl⟩ := run_seq_cls_head h3'
  rw [run_cls_mem] at h4'
  obtain ⟨c4, t4, rfl, h4, rfl⟩ := h4'
  exact ⟨c1, c2, c3, c4, t4, rfl, rfl, h1, h2, h3, h4⟩

/-- Inversion for `x?` over a character class. -/
theorem run_opt_cls_mem {p : Char → Bool} {pw : Bool} {l : List Char} {o : ROut} :
    o ∈ run (optRE (.cls p)) pw l ↔
      ((∃ c t, l = c :: t ∧ p c = true ∧ o = ⟨[c], t, []⟩) ∨ o = ⟨[], l, []⟩) := by
  rw [optRE, run_alt_mem, run_cls_mem, run_eps_mem]

/-- `wnLast` on the empty list. -/
theorem wnLast_nil (pw : Bool) : wnLast pw [] = pw := rfl

/-- The facts needed about a MOBILE fire: it needs a non-word left context,
consumes a non-empty block that begins and ends in word characters
(digits), is 10 characters long, and requires a non-word character (or
the end) after it. -/
theorem mob_facts {pw : Bool} {l : List Char} {o : ROut}
    (h : o ∈ run MOBILE pw l) :
    pw = false ∧ o.m ≠ [] ∧ wnHead o.m = true ∧
      (∀ pw', wnLast pw' o.m = true) ∧ wnHead o.rest = false ∧
      o.m.length = 10 := by
  have hsh : MOBILE = .seq .bnd (.seq (.cls digit69) (.seq (.cls pyDigit)
    (.seq (.cls pyDigit) (.seq (.cls pyDigit) (.seq (.cls pyDigit)
    (.seq (.cls pyDigit) (.seq (.cls pyDigit) (.seq (.cls pyDigit)
    (.seq (.cls pyDigit) (.seq (.cls pyDigit) .bnd)))))))))) := rfl
  rw [hsh, run_seq_bnd_mem] at h
  obtain ⟨hb, h⟩ := h
  obtain ⟨c0, t0, rfl, h0, o1, h1, rfl⟩ := run_seq_cls_head h
  obtain ⟨c1, t1, rfl, hd1, o2, h2, rfl⟩ := run_seq_cls_head h1
  obtain ⟨c2, t2, rfl, hd2, o3, h3, rfl⟩ := run_seq_cls_head h2
  obtain ⟨c3, t3, rfl, hd3, o4, h4, rfl⟩ := run_seq_cls_head h3
  obtain ⟨c4, t4, rfl, hd4, o5, h5, rfl⟩ := run_seq_cls_head h4
  obtain ⟨c5, t5, rfl, hd5, o6, h6, rfl⟩ := run_seq_cls_head h5
  obtain ⟨c6, t6, rfl, hd6, o7, h7, rfl⟩ := run_seq_cls_head h6
  obtain ⟨c7, t7, rfl, hd7, o8, h8, rfl⟩ := run_seq_cls_head h7
  obtain ⟨c8, t8, rfl, hd8, o9, h9, rfl⟩ := run_seq_cls_head h8
  obtain ⟨c9, t9, rfl, hd9, hbe, rfl⟩ := run_seq_cls_bnd h9
  have hw0 : pyWord c0 = true := pyWord_of_pyDigit (pyDigit_of_digit69 h0)
  have hw9 : pyWord c9 = true := pyWord_of_pyDigit hd9
  refine ⟨?_, by simp, by simpa [wnHead] using hw0, ?_, ?_, by simp⟩
  · rw [wnHead, hw0] at hb
    cases pw with
    | false => rfl
    | true => simp at hb
  · intro pw'
    simp only [wnLast_cons, wnLast_nil]
    exact hw9
  · rw [hw9] at hbe
    cases hwh : wnHead t9 with
    | false => rfl
    | true => rw [hwh] at hbe; simp at hbe

/-- The facts needed about a PAN fire (analogous to `mob_facts`). -/
theorem pan_facts {pw : Bool} {l : List Char} {o : ROut}
    (h : o ∈ run PAN pw l) :
    pw = false ∧ o.m ≠ [] ∧ wnHead o.m = true ∧
      (∀ pw', wnLast pw' o.m = true) ∧ wnHead o.rest = false ∧
      o.m.length = 10 := by
  have hsh : PAN = .seq .bnd (.seq (.cls upAZ) (.seq (.cls upAZ)
    (.seq (.cls upAZ) (.seq (.cls upAZ) (.seq (.cls upAZ)
    (.seq (.cls pyDigit) (.seq (.cls pyDigit) (.seq (.cls pyDigit)
    (.seq (.cls pyDigit) (.seq (.cls upAZ) .bnd)))))))))) := rfl
  rw [hsh, run_seq_bnd_mem] at h
  obtain ⟨hb, h⟩ := h
  obtain ⟨c0, t0, rfl, h0, o1, h1, rfl⟩ := run_seq_cls_head h
  obtain ⟨c1, t1, rfl, hu1, o2, h2, rfl⟩ := run_seq_cls_head h1
  obtain ⟨c2, t2, rfl, hu2, o3, h3, rfl⟩ := run_seq_cls_head h2
  obtain ⟨c3, t3, rfl, hu3, o4, h4, rfl⟩ := run_seq_cls_head h3
  obtain ⟨c4, t4, rfl, hu4, o5, h5, rfl⟩ := run_seq_cls_head h4
  obtain ⟨c5, t5, rfl, hd5, o6, h6, rfl⟩ := run_seq_cls_head h5
  obtain ⟨c6, t6, rfl, hd6, o7, h7, rfl⟩ := run_seq_cls_head h6
  obtain ⟨c7, t7, rfl, hd7, o8, h8, rfl⟩ := run_seq_cls_head h7
  obtain ⟨c8, t8, rfl, hd8, o9, h9, rfl⟩ := run_seq_cls_head h8
  obtain ⟨c9, t9, rfl, hu9, hbe, rfl⟩ := run_seq_cls_bnd h9
  have hw0 : pyWord c0 = true := pyWord_of_upAZ h0
  have hw9 : pyWord c9 = true := pyWord_of_upAZ hu9
  refine ⟨?_, by simp, by simpa [wnHead] using hw0, ?_, ?_, by simp⟩
  · rw [wnHead, hw0] at hb
    cases pw with
    | false => rfl
    | true => simp at hb
  · intro pw'
    simp only [wnLast_cons, wnLast_nil]
    exact hw9
  · rw [hw9] at hbe
    cases hwh : wnHead t9 with
    | false => rfl
    | true => rw [hwh] at hbe; simp at hbe

/-- The facts needed about an AADHAAR fire (analogous to `mob_facts`,
without the fixed length: an Aadhaar match is 12 to 14 characters). -/
theorem aad_facts {pw : Bool} {l : List Char} {o : ROut}
    (h : o ∈ run AADHAAR pw l) :
    pw = false ∧ o.m ≠ [] ∧ wnHead o.m = true ∧
      (∀ pw', wnLast pw' o.m = true) ∧ wnHead o.rest = false := by
  have hsh : AADHAAR = .seq .bnd (.seq d4RE (.seq (optRE (.cls pySpace))
    (.seq d4RE (.seq (optRE (.cls pySpace)) (.seq d4RE .bnd))))) := rfl
  rw [hsh, run_seq_bnd_mem] at h
  obtain ⟨hb, h⟩ := h
  rw [run_seq_mem] at h
  obtain ⟨oA, hA, oB, hB, rfl⟩ := h
  obtain ⟨a1, a2, a3, a4, tA, rfl, rfl, ha1, ha2, ha3, ha4⟩ := d4_inv hA
  rw [run_seq_mem] at hB
  obtain ⟨oC, hC, oD, hD, rfl⟩ := hB
  rw [run_seq_mem] at hD
  obtain ⟨oE, hE, oF, hF, rfl⟩ := hD
  obtain ⟨b1, b2, b3, b4, tE, hCr, rfl, hb1, hb2, hb3, hb4⟩ := d4_inv hE
  rw [run_seq_mem] at hF
  obtain ⟨oG, hG, oH, hH, rfl⟩ := hF
  rw [run_seq_mem] at hH
  obtain ⟨oI, hI, oJ, hJ, rfl⟩ := hH
  obtain ⟨d1, d2, d3, d4x, tI, hGr, rfl, hd1, hd2, hd3, hd4⟩ := d4_inv hI
  rw [run_bnd_mem] at hJ
  obtain ⟨hbe, rfl⟩ := hJ
  have hw1 : pyWord a1 = true := pyWord_of_pyDigit ha1
  have hw4 : pyWord d4x = true := pyWord_of_pyDigit hd4
  refine ⟨?_, by simp, ?_, ?_, ?_⟩
  · rw [wnHead, hw1] at hb
    cases pw with
    | false => rfl
    | true => simp at hb
  · simp only [List.cons_append, wnHead]
    exact hw1
  · intro pw'
    simp only [List.append_assoc, wnLast_append, List.append_nil]
    simp only [wnLast_cons, wnLast_nil]
    exact hw4
  · simp only [List.append_nil]
    have hlast : wnLast (wnLast (wnLast (wnLast (wnLast pw [a1, a2, a3, a4])
        oC.m) [b1, b2, b3, b4]) oG.m) [d1, d2, d3, d4x] = pyWord d4x := by
      simp only [wnLast_cons, wnLast_nil]
    rw [hlast, hw4] at hbe
    cases hwh : wnHead tI with
    | false => rfl
    | true => rw [hwh] at hbe; simp at hbe

/-- No fire of `T` at any scan state reachable from `(pw, l)`. -/
def NoFire (T : RE) (pw : Bool) (l : List Char) : Prop :=
  ∀ pw' suf, Reach pw l pw' suf → run T pw' suf = []

/-- Every PAN fire at a reachable scan state matches exactly the PAN
mask (so re-substitution replaces it with identical text). -/
def PanOnly (pw : Bool) (l : List Char) : Prop :=
  ∀ pw' suf, Reach pw l pw' suf → ∀ o ∈ run PAN pw' suf, o.m = panMask

/-- `wnHead` looks only at a non-empty first part. -/
theorem wnHead_append {u : List Char} (v : List Char) (h : u ≠ []) :
    wnHead (u ++ v) = wnHead u := by
  cases u with
  | nil => exact absurd rfl h
  | cons c t => rfl

/-- `wnLast` over a non-empty list ignores the initial flag, stated for a
computable `false` start. -/
theorem wnLast_eq_of_false {b : Bool} {u : List Char}
    (h : wnLast false u = true) : wnLast b u = true := by
  cases u with
  | nil => simp [wnLast_nil] at h
  | cons c t => rw [wnLast_cons] at h ⊢; exact h

/-- Converse of `searchAux_none_states`: if no reachable state fires,
the search fails. -/
theorem searchAux_none_of_states {T : RE} : ∀ {pw : Bool} {pre l : List Char},
    (∀ pw' suf, Reach pw l pw' suf → run T pw' suf = []) →
    searchAux T pw pre l = none := by
  intro pw pre l
  induction l generalizing pw pre with
  | nil =>
    intro h
    have h0 := h pw [] (Reach.refl pw [])
    rw [searchAux, h0]
  | cons c t ih =>
    intro h
    have h0 := h pw (c :: t) (Reach.refl pw (c :: t))
    rw [searchAux, h0]
    exact ih fun pw' suf hr => h pw' suf (Reach.step hr)

/-- `subAll` is the identity when no reachable state fires. -/
theorem subAll_eq_of_noFire {T : RE} {repl : List Char} {pw : Bool}
    {l : List Char} (h : NoFire T pw l) : subAll T repl pw l = l :=
  subAll_none (searchAux_none_of_states fun pw' suf hr => h pw' suf hr)

/-- Splitting an append equation when the left part is the shorter one. -/
theorem append_eq_split_le {α : Type} {m r u v : List α}
    (h : m ++ r = u ++ v) (hle : m.length ≤ u.length) :
    ∃ w, u = m ++ w ∧ r = w ++ v := by
  induction m generalizing u with
  | nil => exact ⟨u, rfl, h⟩
  | cons a m' ih =>
    cases u with
    | nil => simp at hle
    | cons b u' =>
      simp only [List.cons_append, List.cons.injEq] at h
      obtain ⟨rfl, h2⟩ := h
      obtain ⟨w, hw1, hw2⟩ := ih h2 (by simpa using hle)
      exact ⟨w, by rw [hw1, List.cons_append], hw2⟩

/-- Splitting an append equation when the left part is the longer one. -/
theorem append_eq_split_gt {α : Type} {m r u v : List α}
    (h : m ++ r = u ++ v) (hlt : u.length < m.length) :
    ∃ w, m = u ++ w ∧ v = w ++ r ∧ w ≠ [] := by
  induction u generalizing m with
  | nil =>
    cases m with
    | nil => simp at hlt
    | cons a m' =>
      refine ⟨a :: m', rfl, ?_, by simp⟩
      simpa using h.symm
  | cons b u' ih =>
    cases m with
    | nil => simp at hlt
    | cons a m' =>
      simp only [List.cons_append, List.cons.injEq] at h
      obtain ⟨rfl, h2⟩ := h
      obtain ⟨w, hw1, hw2, hw3⟩ := ih h2 (by simpa using hlt)
      exact ⟨w, by rw [List.cons_append, hw1], hw2, hw3⟩

/-- A block of characters all satisfying a class, laid before a part whose
head fails the class, sits inside the first part of the append. -/
theorem split_prefix_of_class {m r u v : List Char} {P : Char → Bool}
    (h : m ++ r = u ++ v) (hm : ∀ c ∈ m, P c = true)
    (hv : ∀ c, v.head? = some c → P c = false) :
    ∃ w, u = m ++ w ∧ r = w ++ v := by
  induction m generalizing u with
  | nil => exact ⟨u, rfl, h⟩
  | cons a m' ih =>
    cases u with
    | nil =>
      exfalso
      simp only [List.nil_append] at h
      have hh : v.head? = some a := by rw [← h]; rfl
      have h1 := hv a hh
      have h2 := hm a (by simp)
      rw [h2] at h1
      exact absurd h1 (by simp)
    | cons b u' =>
      simp only [List.cons_append, List.cons.injEq] at h
      obtain ⟨rfl, h2⟩ := h
      obtain ⟨w, hw1, hw2⟩ := ih h2 (fun c hc => hm c (by simp [hc]))
      exact ⟨w, by rw [hw1, List.cons_append], hw2⟩

/-- Characters consumable by the Aadhaar pattern are digits or spaces. -/
theorem aad_chars {c : Char} (h : reChars AADHAAR c = true) :
    (pyDigit c || pySpace c) = true := by
  simp [AADHAAR, seqs, d4RE, optRE, reChars] at h
  rw [Bool.or_eq_true]
  tauto

/-- Characters consumable by the mobile pattern are digits. -/
theorem mob_chars {c : Char} (h : reChars MOBILE c = true) :
    pyDigit c = true := by
  simp [MOBILE, seqs, reChars] at h
  rcases h with h | h
  · exact pyDigit_of_digit69 h
  · exact h

/-- A fire with a non-empty match forces the head of the text into the
pattern's character repertoire. -/
theorem fire_head_class {T : RE} {C : Char → Bool}
    (hTC : ∀ c, reChars T c = true → C c = true)
    {pw : Bool} {l : List Char} {o : ROut} (ho : o ∈ run T pw l)
    (hne : o.m ≠ []) : ∃ c t, l = c :: t ∧ C c = true := by
  obtain ⟨c, m', hm⟩ := List.exists_cons_of_ne_nil hne
  have hsp := run_split ho
  have hc := run_mem_chars ho c (by rw [hm]; simp)
  refine ⟨c, m' ++ o.rest, ?_, hTC c hc⟩
  rw [← hsp, hm, List.cons_append]

/-- A fire consumed inside a common prefix transfers to the same prefix
followed by different word-headed text. -/
theorem fire_transfer_pre {T : RE} {pw' : Bool} {u w new old : List Char}
    {o' : ROut} (ho' : o' ∈ run T pw' (u ++ new))
    (hu : u = o'.m ++ w)
    (hwn : wnHead new = true) (hwo : wnHead old = true) :
    (⟨o'.m, w ++ old, o'.caps⟩ : ROut) ∈ run T pw' (u ++ old) := by
  have hsp := run_split ho'
  have hrest : o'.rest = w ++ new := by
    have h2 : o'.m ++ o'.rest = o'.m ++ (w ++ new) := by
      rw [hsp, hu, List.append_assoc]
    exact List.append_cancel_left h2
  have hwnh : wnHead (w ++ new) = wnHead (w ++ old) := by
    cases w with
    | nil => simp only [List.nil_append]; rw [hwn, hwo]
    | cons a t => rfl
  have ho'' : (⟨o'.m, w ++ new, o'.caps⟩ : ROut) ∈
      run T pw' (o'.m ++ (w ++ new)) := by
    rw [← hrest, hsp]
    exact ho'
  have ht := run_transfer hwnh ho''
  rwa [← List.append_assoc, ← hu] at ht

/-- A PAN fire consumes exactly ten characters, the sixth of which is a
digit. -/
theorem pan_digit6 {pw : Bool} {l : List Char} {o : ROut}
    (h : o ∈ run PAN pw l) :
    ∃ c0 c1 c2 c3 c4 c5 c6 c7 c8 c9,
      o.m = [c0, c1, c2, c3, c4, c5, c6, c7, c8, c9] ∧ pyDigit c5 = true := by
  have hsh : PAN = .seq .bnd (.seq (.cls upAZ) (.seq (.cls upAZ)
    (.seq (.cls upAZ) (.seq (.cls upAZ) (.seq (.cls upAZ)
    (.seq (.cls pyDigit) (.seq (.cls pyDigit) (.seq (.cls pyDigit)
    (.seq (.cls pyDigit) (.seq (.cls upAZ) .bnd)))))))))) := rfl
  rw [hsh, run_seq_bnd_mem] at h
  obtain ⟨hb, h⟩ := h
  obtain ⟨c0, t0, rfl, h0, o1, h1, rfl⟩ := run_seq_cls_head h
  obtain ⟨c1, t1, rfl, hu1, o2, h2, rfl⟩ := run_seq_cls_head h1
  obtain ⟨c2, t2, rfl, hu2, o3, h3, rfl⟩ := run_seq_cls_head h2
  obtain ⟨c3, t3, rfl, hu3, o4, h4, rfl⟩ := run_seq_cls_head h3
  obtain ⟨c4, t4, rfl, hu4, o5, h5, rfl⟩ := run_seq_cls_head h4
  obtain ⟨c5, t5, rfl, hd5, o6, h6, rfl⟩ := run_seq_cls_head h5
  obtain ⟨c6, t6, rfl, hd6, o7, h7, rfl⟩ := run_seq_cls_head h6
  obtain ⟨c7, t7, rfl, hd7, o8, h8, rfl⟩ := run_seq_cls_head h7
  obtain ⟨c8, t8, rfl, hd8, o9, h9, rfl⟩ := run_seq_cls_head h8
  obtain ⟨c9, t9, rfl, hu9, hbe, rfl⟩ := run_seq_cls_bnd h9
  exact ⟨c0, c1, c2, c3, c4, c5, c6, c7, c8, c9, by simp, hd5⟩

/-- A PAN fire laid over a non-empty prefix followed by a ten-character
mask whose proper suffixes all start with word characters stays inside
the prefix (the trailing boundary kills any crossing). -/
theorem pan_cross {pw' : Bool} {u rest' : List Char} {mask : List Char}
    (hlen : mask.length = 10)
    (hd : ∀ k, 1 ≤ k → k < 10 → wnHead (mask.drop k) = true)
    (hune : u ≠ [])
    {o' : ROut} (ho' : o' ∈ run PAN pw' (u ++ (mask ++ rest'))) :
    ∃ w, u = o'.m ++ w := by
  obtain ⟨-, -, -, -, hb, hlen10⟩ := pan_facts ho'
  have hsp := run_split ho'
  by_cases hle : o'.m.length ≤ u.length
  · obtain ⟨w, hw, -⟩ := append_eq_split_le hsp hle
    exact ⟨w, hw⟩
  · exfalso
    obtain ⟨w, hmw, hvw, hwne⟩ := append_eq_split_gt hsp (by omega)
    have hwlen : w.length ≤ mask.length := by
      have hc := congrArg List.length hmw
      simp only [List.length_append] at hc
      omega
    obtain ⟨w2, hw2a, hw2b⟩ := append_eq_split_le hvw.symm hwlen
    have hw2 : w2 = mask.drop w.length := by
      rw [hw2a, List.drop_left]
    have hk1 : 1 ≤ w.length := by
      cases w with
      | nil => exact absurd rfl hwne
      | cons a t => simp
    have hu1 : 1 ≤ u.length := by
      cases u with
      | nil => exact absurd rfl hune
      | cons a t => simp
    have hk2 : w.length < 10 := by
      have hc := congrArg List.length hmw
      simp only [List.length_append] at hc
      omega
    have hw2ne : w2 ≠ [] := by
      have hc := congrArg List.length hw2a
      simp only [List.length_append] at hc
      intro hnil
      rw [hnil] at hc
      simp at hc
      omega
    have hht : wnHead o'.rest = true := by
      rw [hw2b, wnHead_append rest' hw2ne, hw2]
      exact hd w.length hk1 hk2
    rw [hb] at hht
    exact absurd hht (by simp)

/-- `head?` looks only at a non-empty first part. -/
theorem head?_append_left {u : List Char} (v : List Char) (h : u ≠ []) :
    (u ++ v).head? = u.head? := by
  cases u with
  | nil => exact absurd rfl h
  | cons c t => rfl

/-- Text starting with a mask whose head fails a class has a head that
fails the class. -/
theorem head_block {mask z : List Char} {P : Char → Bool} {x : Char}
    (hx : mask.head? = some x) (hPx : P x = false) :
    ∀ c, (mask ++ z).head? = some c → P c = false := by
  intro c hc
  have hne : mask ≠ [] := by
    intro h
    rw [h] at hx
    simp at hx
  rw [head?_append_left z hne, hx] at hc
  simp only [Option.some.injEq] at hc
  subst hc
  exact hPx

/-- No fire of a class-restricted, left-anchored pattern at a scan state
inside a mask each of whose positions is shielded either by a preceding
word character or by a head outside the class. -/
theorem inmask_block {T : RE} {C : Char → Bool}
    (hTC : ∀ c, reChars T c = true → C c = true)
    (hT : ∀ {pw : Bool} {l : List Char} {o : ROut},
      o ∈ run T pw l → pw = false ∧ o.m ≠ [])
    {mask : List Char}
    (hmask : ∀ j, j < mask.length → wnLast false (mask.take j) = true ∨
      C ((mask.drop j).headD ('A')) = false)
    {b : Bool} {j : Nat} (hj : j < mask.length) (z : List Char) :
    run T (wnLast b (mask.take j)) (mask.drop j ++ z) = [] := by
  rcases hrun : run T (wnLast b (mask.take j)) (mask.drop j ++ z)
    with _ | ⟨o, os⟩
  · rfl
  · exfalso
    have ho : o ∈ run T (wnLast b (mask.take j)) (mask.drop j ++ z) := by
      rw [hrun]
      exact List.mem_cons_self _ _
    obtain ⟨hpw, hne⟩ := hT ho
    rcases hmask j hj with hW | hH
    · have hW' := wnLast_eq_of_false (b := b) hW
      rw [hpw] at hW'
      exact absurd hW' (by simp)
    · obtain ⟨c, t, hct, hc⟩ := fire_head_class hTC ho hne
      have hdne : mask.drop j ≠ [] := by
        apply List.ne_nil_of_length_pos
        rw [List.length_drop]
        omega
      obtain ⟨d, t', hd⟩ := List.exists_cons_of_ne_nil hdne
      rw [hd] at hct
      simp only [List.cons_append, List.cons.injEq] at hct
      obtain ⟨rfl, -⟩ := hct
      rw [hd] at hH
      simp only [List.headD_cons] at hH
      exact absurd hc (by simp [hH])

/-- Every position of the Aadhaar mask is shielded against the Aadhaar
pattern: a word character precedes it or a non-digit non-space heads it. -/
theorem aadMask_inmask_aad : ∀ j, j < aadMask.length →
    wnLast false (aadMask.take j) = true ∨
    (pyDigit ((aadMask.drop j).headD ('A')) ||
      pySpace ((aadMask.drop j).headD ('A'))) = false := by decide

/-- Every position of the PAN mask is shielded against the Aadhaar
pattern. -/
theorem panMask_inmask_aad : ∀ j, j < panMask.length →
    wnLast false (panMask.take j) = true ∨
    (pyDigit ((panMask.drop j).headD ('A')) ||
      pySpace ((panMask.drop j).headD ('A'))) = false := by decide

/-- Every position of the mobile mask is shielded against the Aadhaar
pattern. -/
theorem mobMask_inmask_aad : ∀ j, j < mobMask.length →
    wnLast false (mobMask.take j) = true ∨
    (pyDigit ((mobMask.drop j).headD ('A')) ||
      pySpace ((mobMask.drop j).headD ('A'))) = false := by decide

/-- Every position of the mobile mask is shielded against the mobile
pattern. -/
theorem mobMask_inmask_mob : ∀ j, j < mobMask.length →
    wnLast false (mobMask.take j) = true ∨
    pyDigit ((mobMask.drop j).headD ('A')) = false := by decide

/-- Interior positions of the PAN mask are preceded by word characters. -/
theorem panMask_takeW : ∀ j, j < 10 → 1 ≤ j →
    wnLast false (panMask.take j) = true := by decide

/-- Interior positions of the mobile mask are preceded by word
characters. -/
theorem mobMask_takeW : ∀ j, j < 10 → 1 ≤ j →
    wnLast false (mobMask.take j) = true := by decide

/-- Proper suffixes of the PAN mask start with word characters. -/
theorem panMask_dropW : ∀ k, k < 10 → 1 ≤ k →
    wnHead (panMask.drop k) = true := by decide

/-- Proper suffixes of the mobile mask start with word characters. -/
theorem mobMask_dropW : ∀ k, k < 10 → 1 ≤ k →
    wnHead (mobMask.drop k) = true := by decide

/-- The Aadhaar mask ends in a word character. -/
theorem aadMask_wnLast (b : Bool) : wnLast b aadMask = true :=
  wnLast_eq_of_false (by decide)

/-- The PAN mask ends in a word character. -/
theorem panMask_wnLast (b : Bool) : wnLast b panMask = true :=
  wnLast_eq_of_false (by decide)

/-- The mobile mask ends in a word character. -/
theorem mobMask_wnLast (b : Bool) : wnLast b mobMask = true :=
  wnLast_eq_of_false (by decide)

/-- Text starting with the Aadhaar mask starts with a word character. -/
theorem aadMask_wnHead (z : List Char) : wnHead (aadMask ++ z) = true := by
  rw [wnHead_append z (by decide)]
  decide

/-- Text starting with the PAN mask starts with a word character. -/
theorem panMask_wnHead (z : List Char) : wnHead (panMask ++ z) = true := by
  rw [wnHead_append z (by decide)]
  decide

/-- Text starting with the mobile mask starts with a word character. -/
theorem mobMask_wnHead (z : List Char) : wnHead (mobMask ++ z) = true := by
  rw [wnHead_append z (by decide)]
  decide

/-- Core decomposition: no fire of a shielded class pattern `T` anywhere
in `pre ++ mask ++ OUT` given no fire over `pre` against the old
continuation, the mask shielding facts, and no fire within `OUT`. -/
theorem noFire_parts {T : RE} {C : Char → Bool}
    (hTC : ∀ c, reChars T c = true → C c = true)
    (hT : ∀ {pw : Bool} {l : List Char} {o : ROut},
      o ∈ run T pw l → pw = false ∧ o.m ≠ [])
    {mask : List Char}
    (hmask : ∀ j, j < mask.length → wnLast false (mask.take j) = true ∨
      C ((mask.drop j).headD ('A')) = false)
    (hmaskH : ∀ z, wnHead (mask ++ z) = true)
    (hmaskC : ∀ z c, (mask ++ z).head? = some c → C c = false)
    {pw : Bool} {pre' old OUT' : List Char}
    (holdH : wnHead old = true)
    (hpre : ∀ j, j < pre'.length →
      run T (wnLast pw (pre'.take j)) (pre'.drop j ++ old) = [])
    (hout : ∀ pw2 suf2, Reach (wnLast (wnLast pw pre') mask) OUT' pw2 suf2 →
      run T pw2 suf2 = [])
    {pw' : Bool} {suf : List Char}
    (hr : Reach pw (pre' ++ (mask ++ OUT')) pw' suf) :
    run T pw' suf = [] := by
  rcases Reach_append_cases hr with ⟨j, hj, hpw', hsuf⟩ | hr2
  · subst hpw'
    subst hsuf
    rcases hrun : run T (wnLast pw (pre'.take j)) (pre'.drop j ++ (mask ++ OUT'))
      with _ | ⟨o', os'⟩
    · rfl
    · exfalso
      have ho' : o' ∈ run T (wnLast pw (pre'.take j))
          (pre'.drop j ++ (mask ++ OUT')) := by
        rw [hrun]
        exact List.mem_cons_self _ _
      have hchars : ∀ c ∈ o'.m, C c = true :=
        fun c hc => hTC c (run_mem_chars ho' c hc)
      have hsp := run_split ho'
      obtain ⟨w, hw1, -⟩ := split_prefix_of_class hsp hchars (hmaskC OUT')
      have htr := fire_transfer_pre ho' hw1 (hmaskH OUT') holdH
      rw [hpre j hj] at htr
      exact absurd htr (by simp)
  · rcases Reach_append_cases hr2 with ⟨j2, hj2, hpw', hsuf⟩ | hr3
    · subst hpw'
      subst hsuf
      exact inmask_block hTC hT hmask hj2 OUT'
    · exact hout _ _ hr3

/-- No mobile fire anywhere in the output of the mobile-number pass. -/
theorem mob_self_aux : ∀ (n : Nat) (pw : Bool) (l : List Char),
    l.length ≤ n → ∀ pw' suf,
      Reach pw (subAll MOBILE mobMask pw l) pw' suf →
      run MOBILE pw' suf = [] := by
  intro n
  induction n with
  | zero =>
    intro pw l hl
    have hln : l = [] := List.length_eq_zero.mp (Nat.le_zero.mp hl)
    subst hln
    cases hs : searchAux MOBILE pw [] [] with
    | none =>
      rw [subAll_none hs]
      exact fun pw' suf hr => searchAux_none_states hs hr
    | some po =>
      exfalso
      obtain ⟨pre, o⟩ := po
      obtain ⟨pre', os, hp, hl', hrun, hnone⟩ := searchAux_some_full hs
      have ho : o ∈ run MOBILE (wnLast pw pre') (o.m ++ o.rest) := by
        rw [hrun]
        exact List.mem_cons_self _ _
      obtain ⟨-, hne, -, -, -, -⟩ := mob_facts ho
      have hc := congrArg List.length hl'
      simp only [List.length_nil, List.length_append] at hc
      exact hne (List.length_eq_zero.mp (by omega))
  | succ n ih =>
    intro pw l hl
    cases hs : searchAux MOBILE pw [] l with
    | none =>
      rw [subAll_none hs]
      exact fun pw' suf hr => searchAux_none_states hs hr
    | some po =>
      obtain ⟨pre, o⟩ := po
      obtain ⟨pre', os, hp, hl', hrun, hnone⟩ := searchAux_some_full hs
      simp only [List.reverse_nil, List.nil_append] at hp
      subst hp
      have ho : o ∈ run MOBILE (wnLast pw pre) (o.m ++ o.rest) := by
        rw [hrun]
        exact List.mem_cons_self _ _
      obtain ⟨-, hne, hheadm, hwl, -, -⟩ := mob_facts ho
      rw [subAll_some_pos hs hne, List.append_assoc, hwl pw]
      have hlenl := congrArg List.length hl'
      simp only [List.length_append] at hlenl
      have hmlen : 1 ≤ o.m.length := by
        cases hm : o.m with
        | nil => exact absurd hm hne
        | cons a t => simp
      have hrec := ih true o.rest (by omega)
      intro pw' suf hr
      refine noFire_parts (fun c h => mob_chars h)
        (fun h => ⟨(mob_facts h).1, (mob_facts h).2.1⟩)
        mobMask_inmask_mob mobMask_wnHead
        (fun z => head_block (x := 'X') (by decide) (by decide))
        ?_ (fun j hj => hnone j hj) ?_ hr
      · rw [wnHead_append _ hne]
        exact hheadm
      · intro pw2 suf2 hr2
        exact hrec pw2 suf2 (by rwa [mobMask_wnLast] at hr2)

/-- Master induction: a shielded class pattern `T` fires nowhere in the
output of `re.sub` with pattern `R` and replacement `mask`, given an
invariant `I` supplying the no-fire facts for the scanned prefix and the
recursive tail. -/
theorem noFire_subAll_master {T R : RE} {mask : List Char} {C : Char → Bool}
    (hTC : ∀ c, reChars T c = true → C c = true)
    (hT : ∀ {pw : Bool} {l : List Char} {o : ROut},
      o ∈ run T pw l → pw = false ∧ o.m ≠ [])
    (hmask : ∀ j, j < mask.length → wnLast false (mask.take j) = true ∨
      C ((mask.drop j).headD ('A')) = false)
    (hmaskH : ∀ z, wnHead (mask ++ z) = true)
    (hmaskC : ∀ z c, (mask ++ z).head? = some c → C c = false)
    (hmaskW : ∀ b, wnLast b mask = true)
    (hR : ∀ {pw : Bool} {l : List Char} {o : ROut}, o ∈ run R pw l →
      o.m ≠ [] ∧ wnHead o.m = true ∧ ∀ b, wnLast b o.m = true)
    (I : Bool → List Char → Prop)
    (hInone : ∀ {pw : Bool} {l : List Char}, I pw l →
      searchAux R pw [] l = none →
      ∀ pw' suf, Reach pw l pw' suf → run T pw' suf = [])
    (hIpre : ∀ {pw : Bool} {pre : List Char} {o : ROut} {os : List ROut},
      I pw (pre ++ (o.m ++ o.rest)) →
      run R (wnLast pw pre) (o.m ++ o.rest) = o :: os →
      (∀ j, j < pre.length →
        run R (wnLast pw (pre.take j)) (pre.drop j ++ (o.m ++ o.rest)) = []) →
      ∀ j, j < pre.length →
        run T (wnLast pw (pre.take j)) (pre.drop j ++ (o.m ++ o.rest)) = [])
    (hIrec : ∀ {pw : Bool} {pre : List Char} {o : ROut} {os : List ROut},
      I pw (pre ++ (o.m ++ o.rest)) →
      run R (wnLast pw pre) (o.m ++ o.rest) = o :: os → I true o.rest) :
    ∀ (n : Nat) (pw : Bool) (l : List Char), l.length ≤ n → I pw l →
      ∀ pw' suf, Reach pw (subAll R mask pw l) pw' suf →
      run T pw' suf = [] := by
  intro n
  induction n with
  | zero =>
    intro pw l hl hI
    have hln : l = [] := List.length_eq_zero.mp (Nat.le_zero.mp hl)
    subst hln
    cases hs : searchAux R pw [] [] with
    | none =>
      rw [subAll_none hs]
      exact hInone hI hs
    | some po =>
      exfalso
      obtain ⟨pre, o⟩ := po
      obtain ⟨pre', os, hp, hl', hrun, hnone⟩ := searchAux_some_full hs
      have ho : o ∈ run R (wnLast pw pre') (o.m ++ o.rest) := by
        rw [hrun]
        exact List.mem_cons_self _ _
      obtain ⟨hne, -, -⟩ := hR ho
      have hc := congrArg List.length hl'
      simp only [List.length_nil, List.length_append] at hc
      exact hne (List.length_eq_zero.mp (by omega))
  | succ n ih =>
    intro pw l hl hI
    cases hs : searchAux R pw [] l with
    | none =>
      rw [subAll_none hs]
      exact hInone hI hs
    | some po =>
      obtain ⟨pre, o⟩ := po
      obtain ⟨pre', os, hp, hl', hrun, hnone⟩ := searchAux_some_full hs
      simp only [List.reverse_nil, List.nil_append] at hp
      subst hp
      have ho : o ∈ run R (wnLast pw pre) (o.m ++ o.rest) := by
        rw [hrun]
        exact List.mem_cons_self _ _
      obtain ⟨hne, hheadm, hwl⟩ := hR ho
      rw [subAll_some_pos hs hne, List.append_assoc, hwl pw]
      have hlenl := congrArg List.length hl'
      simp only [List.length_append] at hlenl
      have hmlen : 1 ≤ o.m.length := by
        cases hm : o.m with
        | nil => exact absurd hm hne
        | cons a t => simp
      rw [hl'] at hI
      have hrec := ih true o.rest (by omega) (hIrec hI hrun)
      intro pw' suf hr
      refine noFire_parts hTC hT hmask hmaskH hmaskC ?_
        (hIpre hI hrun hnone) ?_ hr
      · rw [wnHead_append _ hne]
        exact hheadm
      · intro pw2 suf2 hr2
        exact hrec pw2 suf2 (by rwa [hmaskW] at hr2)

/-- No Aadhaar fire anywhere in the output of the Aadhaar pass. -/
theorem aad_self_nf (pw : Bool) (l : List Char) :
    NoFire AADHAAR pw (subAll AADHAAR aadMask pw l) := by
  unfold NoFire
  intro pw' suf hr
  exact noFire_subAll_master
    (fun c h => aad_chars h)
    (fun h => ⟨(aad_facts h).1, (aad_facts h).2.1⟩)
    aadMask_inmask_aad aadMask_wnHead
    (fun z => head_block (x := 'X') (by decide) (by decide))
    aadMask_wnLast
    (fun h => ⟨(aad_facts h).2.1, (aad_facts h).2.2.1,
      fun b => (aad_facts h).2.2.2.1 b⟩)
    (fun _ _ => True)
    (fun _ hs => fun pw2 suf2 hr2 => searchAux_none_states hs hr2)
    (fun _ _ hnone => hnone)
    (fun _ _ => trivial)
    l.length pw l le_rfl trivial pw' suf hr

/-- The PAN pass preserves the absence of Aadhaar fires. -/
theorem aad_nf_pan (pw : Bool) (l : List Char) (hnf : NoFire AADHAAR pw l) :
    NoFire AADHAAR pw (subAll PAN panMask pw l) := by
  unfold NoFire
  intro pw' suf hr
  refine noFire_subAll_master
    (fun c h => aad_chars h)
    (fun h => ⟨(aad_facts h).1, (aad_facts h).2.1⟩)
    panMask_inmask_aad panMask_wnHead
    (fun z => head_block (x := 'X') (by decide) (by decide))
    panMask_wnLast
    (fun h => ⟨(pan_facts h).2.1, (pan_facts h).2.2.1,
      fun b => (pan_facts h).2.2.2.1 b⟩)
    (NoFire AADHAAR)
    ?_ ?_ ?_
    l.length pw l le_rfl hnf pw' suf hr
  · intro pw0 l0 hI hs0 pw2 suf2 hr2
    exact hI pw2 suf2 hr2
  · intro pw0 pre o os hI hrun hnone j hj
    exact hI _ _ (Reach_mid pre (o.m ++ o.rest) pw0 j (Nat.le_of_lt hj))
  · intro pw0 pre o os hI hrun
    unfold NoFire
    intro pw2 suf2 hr2
    refine hI pw2 suf2 ?_
    have ho : o ∈ run PAN (wnLast pw0 pre) (o.m ++ o.rest) := by
      rw [hrun]
      exact List.mem_cons_self _ _
    have h1 := Reach_through pre (o.m ++ o.rest) pw0
    have h2 := Reach_through o.m o.rest (wnLast pw0 pre)
    rw [(pan_facts ho).2.2.2.1 (wnLast pw0 pre)] at h2
    exact Reach.trans h1 (Reach.trans h2 hr2)

/-- The mobile pass preserves the absence of Aadhaar fires. -/
theorem aad_nf_mob (pw : Bool) (l : List Char) (hnf : NoFire AADHAAR pw l) :
    NoFire AADHAAR pw (subAll MOBILE mobMask pw l) := by
  unfold NoFire
  intro pw' suf hr
  refine noFire_subAll_master
    (fun c h => aad_chars h)
    (fun h => ⟨(aad_facts h).1, (aad_facts h).2.1⟩)
    mobMask_inmask_aad mobMask_wnHead
    (fun z => head_block (x := 'X') (by decide) (by decide))
    mobMask_wnLast
    (fun h => ⟨(mob_facts h).2.1, (mob_facts h).2.2.1,
      fun b => (mob_facts h).2.2.2.1 b⟩)
    (NoFire AADHAAR)
    ?_ ?_ ?_
    l.length pw l le_rfl hnf pw' suf hr
  · intro pw0 l0 hI hs0 pw2 suf2 hr2
    exact hI pw2 suf2 hr2
  · intro pw0 pre o os hI hrun hnone j hj
    exact hI _ _ (Reach_mid pre (o.m ++ o.rest) pw0 j (Nat.le_of_lt hj))
  · intro pw0 pre o os hI hrun
    unfold NoFire
    intro pw2 suf2 hr2
    refine hI pw2 suf2 ?_
    have ho : o ∈ run MOBILE (wnLast pw0 pre) (o.m ++ o.rest) := by
      rw [hrun]
      exact List.mem_cons_self _ _
    have h1 := Reach_through pre (o.m ++ o.rest) pw0
    have h2 := Reach_through o.m o.rest (wnLast pw0 pre)
    rw [(mob_facts ho).2.2.2.1 (wnLast pw0 pre)] at h2
    exact Reach.trans h1 (Reach.trans h2 hr2)

/-- No mobile fire anywhere in the output of the mobile pass. -/
theorem mob_self_nf (pw : Bool) (l : List Char) :
    NoFire MOBILE pw (subAll MOBILE mobMask pw l) := by
  unfold NoFire
  intro pw' suf hr
  exact mob_self_aux l.length pw l le_rfl pw' suf hr

/-- Core decomposition for the PAN pattern: over `pre ++ mask ++ OUT`
with a ten-character word-interior mask, every PAN fire either transfers
into the scanned prefix, matches from the mask start, or lies in `OUT`. -/
theorem panOnly_parts {mask : List Char}
    (hlen : mask.length = 10)
    (hdropW : ∀ k, k < 10 → 1 ≤ k → wnHead (mask.drop k) = true)
    (htakeW : ∀ j, j < 10 → 1 ≤ j → wnLast false (mask.take j) = true)
    (hmaskH : ∀ z, wnHead (mask ++ z) = true)
    (hmask0 : ∀ (pw0 : Bool) (z : List Char),
      ∀ o ∈ run PAN pw0 (mask ++ z), o.m = panMask)
    {pw : Bool} {pre' old OUT' : List Char}
    (holdH : wnHead old = true)
    (hpre : ∀ j, j < pre'.length →
      ∀ o2 ∈ run PAN (wnLast pw (pre'.take j)) (pre'.drop j ++ old),
        o2.m = panMask)
    (hout : ∀ pw2 suf2, Reach (wnLast (wnLast pw pre') mask) OUT' pw2 suf2 →
      ∀ o2 ∈ run PAN pw2 suf2, o2.m = panMask)
    {pw' : Bool} {suf : List Char}
    (hr : Reach pw (pre' ++ (mask ++ OUT')) pw' suf) :
    ∀ o2 ∈ run PAN pw' suf, o2.m = panMask := by
  rcases Reach_append_cases hr with ⟨j, hj, hpw', hsuf⟩ | hr2
  · subst hpw'
    subst hsuf
    intro o2 ho2
    have hdne : pre'.drop j ≠ [] := by
      apply List.ne_nil_of_length_pos
      rw [List.length_drop]
      omega
    obtain ⟨w, hw⟩ := pan_cross hlen (fun k h1 h2 => hdropW k h2 h1) hdne ho2
    have htr := fire_transfer_pre ho2 hw (hmaskH OUT') holdH
    exact hpre j hj ⟨o2.m, w ++ old, o2.caps⟩ htr
  · rcases Reach_append_cases hr2 with ⟨j2, hj2, hpw', hsuf⟩ | hr3
    · subst hpw'
      subst hsuf
      cases j2 with
      | zero =>
        intro o2 ho2
        exact hmask0 _ OUT' o2 (by simpa [wnLast_nil] using ho2)
      | succ j2 =>
        intro o2 ho2
        exfalso
        have hj2' : j2 + 1 < 10 := by
          rw [hlen] at hj2
          exact hj2
        have hW : wnLast false (mask.take (j2 + 1)) = true :=
          htakeW (j2 + 1) hj2' (by omega)
        have hpwt : wnLast (wnLast pw pre') (mask.take (j2 + 1)) = true :=
          wnLast_eq_of_false hW
        have hf := (pan_facts ho2).1
        rw [hpwt] at hf
        exact absurd hf (by simp)
    · exact hout _ _ hr3

/-- Master induction for the PAN mask-only invariant over `re.sub` with
pattern `R` and a ten-character word mask. -/
theorem panOnly_subAll_master {R : RE} {mask : List Char}
    (hlen : mask.length = 10)
    (hdropW : ∀ k, k < 10 → 1 ≤ k → wnHead (mask.drop k) = true)
    (htakeW : ∀ j, j < 10 → 1 ≤ j → wnLast false (mask.take j) = true)
    (hmaskH : ∀ z, wnHead (mask ++ z) = true)
    (hmaskW : ∀ b, wnLast b mask = true)
    (hmask0 : ∀ (pw0 : Bool) (z : List Char),
      ∀ o ∈ run PAN pw0 (mask ++ z), o.m = panMask)
    (hR : ∀ {pw : Bool} {l : List Char} {o : ROut}, o ∈ run R pw l →
      o.m ≠ [] ∧ wnHead o.m = true ∧ ∀ b, wnLast b o.m = true)
    (I : Bool → List Char → Prop)
    (hInone : ∀ {pw : Bool} {l : List Char}, I pw l →
      searchAux R pw [] l = none →
      ∀ pw' suf, Reach pw l pw' suf → ∀ o2 ∈ run PAN pw' suf, o2.m = panMask)
    (hIpre : ∀ {pw : Bool} {pre : List Char} {o : ROut} {os : List ROut},
      I pw (pre ++ (o.m ++ o.rest)) →
      run R (wnLast pw pre) (o.m ++ o.rest) = o :: os →
      (∀ j, j < pre.length →
        run R (wnLast pw (pre.take j)) (pre.drop j ++ (o.m ++ o.rest)) = []) →
      ∀ j, j < pre.length →
        ∀ o2 ∈ run PAN (wnLast pw (pre.take j)) (pre.drop j ++ (o.m ++ o.rest)),
          o2.m = panMask)
    (hIrec : ∀ {pw : Bool} {pre : List Char} {o : ROut} {os : List ROut},
      I pw (pre ++ (o.m ++ o.rest)) →
      run R (wnLast pw pre) (o.m ++ o.rest) = o :: os → I true o.rest) :
    ∀ (n : Nat) (pw : Bool) (l : List Char), l.length ≤ n → I pw l →
      ∀ pw' suf, Reach pw (subAll R mask pw l) pw' suf →
      ∀ o2 ∈ run PAN pw' suf, o2.m = panMask := by
  intro n
  induction n with
  | zero =>
    intro pw l hl hI
    have hln : l = [] := List.length_eq_zero.mp (Nat.le_zero.mp hl)
    subst hln
    cases hs : searchAux R pw [] [] with
    | none =>
      rw [subAll_none hs]
      exact hInone hI hs
    | some po =>
      exfalso
      obtain ⟨pre, o⟩ := po
      obtain ⟨pre', os, hp, hl', hrun, hnone⟩ := searchAux_some_full hs
      have ho : o ∈ run R (wnLast pw pre') (o.m ++ o.rest) := by
        rw [hrun]
        exact List.mem_cons_self _ _
      obtain ⟨hne, -, -⟩ := hR ho
      have hc := congrArg List.length hl'
      simp only [List.length_nil, List.length_append] at hc
      exact hne (List.length_eq_zero.mp (by omega))
  | succ n ih =>
    intro pw l hl hI
    cases hs : searchAux R pw [] l with
    | none =>
      rw [subAll_none hs]
      exact hInone hI hs
    | some po =>
      obtain ⟨pre, o⟩ := po
      obtain ⟨pre', os, hp, hl', hrun, hnone⟩ := searchAux_some_full hs
      simp only [List.reverse_nil, List.nil_append] at hp
      subst hp
      have ho : o ∈ run R (wnLast pw pre) (o.m ++ o.rest) := by
        rw [hrun]
        exact List.mem_cons_self _ _
      obtain ⟨hne, hheadm, hwl⟩ := hR ho
      rw [subAll_some_pos hs hne, List.append_assoc, hwl pw]
      have hlenl := congrArg List.length hl'
      simp only [List.length_append] at hlenl
      have hmlen : 1 ≤ o.m.length := by
        cases hm : o.m with
        | nil => exact absurd hm hne
        | cons a t => simp
      rw [hl'] at hI
      have hrec := ih true o.rest (by omega) (hIrec hI hrun)
      intro pw' suf hr
      refine panOnly_parts hlen hdropW htakeW hmaskH hmask0 ?_
        (hIpre hI hrun hnone) ?_ hr
      · rw [wnHead_append _ hne]
        exact hheadm
      · intro pw2 suf2 hr2
        exact hrec pw2 suf2 (by rwa [hmaskW] at hr2)

/-- A PAN fire on text starting with the PAN mask matches exactly the
mask (both are ten characters wide). -/
theorem panMask_mask0 : ∀ (pw0 : Bool) (z : List Char),
    ∀ o ∈ run PAN pw0 (panMask ++ z), o.m = panMask := by
  intro pw0 z o ho
  have hsp := run_split ho
  have hlen10 := (pan_facts ho).2.2.2.2.2
  have hl2 : o.m.length = panMask.length := by
    rw [hlen10]
    decide
  exact (List.append_inj hsp hl2).1

/-- No PAN fire on text starting with the mobile mask (its sixth
character is not a digit). -/
theorem mobMask_mask0 : ∀ (pw0 : Bool) (z : List Char),
    ∀ o ∈ run PAN pw0 (mobMask ++ z), o.m = panMask := by
  intro pw0 z o ho
  exfalso
  have hsp := run_split ho
  have hlen10 := (pan_facts ho).2.2.2.2.2
  have hl2 : o.m.length = mobMask.length := by
    rw [hlen10]
    decide
  have hm := (List.append_inj hsp hl2).1
  obtain ⟨c0, c1, c2, c3, c4, c5, c6, c7, c8, c9, hml, hd5⟩ := pan_digit6 ho
  rw [hml] at hm
  have hmob : mobMask = ['X', 'X', 'X', 'X', 'X', 'X', 'X', 'X', 'X', 'X'] := by
    decide
  rw [hmob] at hm
  simp only [List.cons.injEq, and_true] at hm
  obtain ⟨-, -, -, -, -, h5, -, -, -, -⟩ := hm
  rw [h5] at hd5
  exact absurd hd5 (by decide)

/-- Every PAN fire in the output of the PAN pass matches exactly the PAN
mask. -/
theorem panOnly_self (pw : Bool) (l : List Char) :
    PanOnly pw (subAll PAN panMask pw l) := by
  unfold PanOnly
  intro pw' suf hr
  refine panOnly_subAll_master (by decide) panMask_dropW panMask_takeW
    panMask_wnHead panMask_wnLast panMask_mask0
    (fun h => ⟨(pan_facts h).2.1, (pan_facts h).2.2.1,
      fun b => (pan_facts h).2.2.2.1 b⟩)
    (fun _ _ => True)
    ?_ ?_
    (fun _ _ => trivial)
    l.length pw l le_rfl trivial pw' suf hr
  · intro pw0 l0 hI hs0 pw2 suf2 hr2 o2 ho2
    rw [searchAux_none_states hs0 hr2] at ho2
    simp at ho2
  · intro pw0 pre o os hI hrun hnone j hj o2 ho2
    rw [hnone j hj] at ho2
    simp at ho2

/-- The mobile pass preserves the PAN mask-only invariant. -/
theorem panOnly_mob (pw : Bool) (l : List Char) (hpo : PanOnly pw l) :
    PanOnly pw (subAll MOBILE mobMask pw l) := by
  unfold PanOnly
  intro pw' suf hr
  refine panOnly_subAll_master (by decide) mobMask_dropW mobMask_takeW
    mobMask_wnHead mobMask_wnLast mobMask_mask0
    (fun h => ⟨(mob_facts h).2.1, (mob_facts h).2.2.1,
      fun b => (mob_facts h).2.2.2.1 b⟩)
    PanOnly
    ?_ ?_ ?_
    l.length pw l le_rfl hpo pw' suf hr
  · intro pw0 l0 hI hs0 pw2 suf2 hr2 o2 ho2
    exact hI pw2 suf2 hr2 o2 ho2
  · intro pw0 pre o os hI hrun hnone j hj o2 ho2
    exact hI _ _ (Reach_mid pre (o.m ++ o.rest) pw0 j (Nat.le_of_lt hj)) o2 ho2
  · intro pw0 pre o os hI hrun
    unfold PanOnly
    intro pw2 suf2 hr2 o2 ho2
    refine hI pw2 suf2 ?_ o2 ho2
    have ho : o ∈ run MOBILE (wnLast pw0 pre) (o.m ++ o.rest) := by
      rw [hrun]
      exact List.mem_cons_self _ _
    have h1 := Reach_through pre (o.m ++ o.rest) pw0
    have h2 := Reach_through o.m o.rest (wnLast pw0 pre)
    rw [(mob_facts ho).2.2.2.1 (wnLast pw0 pre)] at h2
    exact Reach.trans h1 (Reach.trans h2 hr2)

/-- `re.sub` with the PAN pattern is the identity on text where every
PAN fire matches exactly the PAN mask. -/
theorem subAll_eq_of_panOnly : ∀ (n : Nat) (pw : Bool) (l : List Char),
    l.length ≤ n → PanOnly pw l → subAll PAN panMask pw l = l := by
  intro n
  induction n with
  | zero =>
    intro pw l hl hI
    have hln : l = [] := List.length_eq_zero.mp (Nat.le_zero.mp hl)
    subst hln
    cases hs : searchAux PAN pw [] [] with
    | none => exact subAll_none hs
    | some po =>
      exfalso
      obtain ⟨pre, o⟩ := po
      obtain ⟨pre', os, hp, hl', hrun, hnone⟩ := searchAux_some_full hs
      have ho : o ∈ run PAN (wnLast pw pre') (o.m ++ o.rest) := by
        rw [hrun]
        exact List.mem_cons_self _ _
      have hne := (pan_facts ho).2.1
      have hc := congrArg List.length hl'
      simp only [List.length_nil, List.length_append] at hc
      exact hne (List.length_eq_zero.mp (by omega))
  | succ n ih =>
    intro pw l hl hI
    cases hs : searchAux PAN pw [] l with
    | none => exact subAll_none hs
    | some po =>
      obtain ⟨pre, o⟩ := po
      obtain ⟨pre', os, hp, hl', hrun, hnone⟩ := searchAux_some_full hs
      simp only [List.reverse_nil, List.nil_append] at hp
      subst hp
      have ho : o ∈ run PAN (wnLast pw pre) (o.m ++ o.rest) := by
        rw [hrun]
        exact List.mem_cons_self _ _
      have hne := (pan_facts ho).2.1
      have hm : o.m = panMask := by
        refine hI _ _ ?_ o ho
        rw [hl']
        exact Reach_through pre (o.m ++ o.rest) pw
      have hIrest : PanOnly true o.rest := by
        unfold PanOnly
        intro pw2 suf2 hr2 o2 ho2
        refine hI pw2 suf2 ?_ o2 ho2
        rw [hl']
        have h1 := Reach_through pre (o.m ++ o.rest) pw
        have h2 := Reach_through o.m o.rest (wnLast pw pre)
        rw [(pan_facts ho).2.2.2.1 (wnLast pw pre)] at h2
        exact Reach.trans h1 (Reach.trans h2 hr2)
      have hlenl := congrArg List.length hl'
      simp only [List.length_append] at hlenl
      have hmlen : 1 ≤ o.m.length := by
        cases hmm : o.m with
        | nil => exact absurd hmm hne
        | cons a t => simp
      rw [subAll_some_pos hs hne, (pan_facts ho).2.2.2.1 pw,
        ih true o.rest (by omega) hIrest, hl', hm]
      simp [List.append_assoc]

/-- The redactor is idempotent. -/
theorem red_idem_aux (s : List Char) : red (red s) = red s := by
  have h1 := aad_self_nf false s
  have h2 := aad_nf_pan false _ h1
  have h3 := aad_nf_mob false _ h2
  have h4 := panOnly_self false (subAll AADHAAR aadMask false s)
  have h5 := panOnly_mob false _ h4
  unfold red
  rw [subAll_eq_of_noFire h3,
    subAll_eq_of_panOnly _ false _ le_rfl h5,
    subAll_eq_of_noFire (mob_self_nf false
      (subAll PAN panMask false (subAll AADHAAR aadMask false s)))]

/-- C5 (counterexample to the subordinate clause): the PAN replacement
text is itself matched by the PAN pattern — redacting a PAN number
produces text on which a second PAN search finds a (new) match, namely
the mask itself. -/
theorem red_mask_rematch_counterexample :
    red (String.toList "ABCDE1234F") = String.toList "XXXXX9999X" ∧
    reSearch PAN (red (String.toList "ABCDE1234F")) =
      some ([], ⟨String.toList "XXXXX9999X", [], []⟩) := by
  constructor
  · decide
  · decide

/-- C5: the redactor `red` (Aadhaar, then PAN, then mobile masking) is
idempotent — applying it twice yields the same text as applying it
once, for every input.  (The PAN mask does re-match the PAN pattern,
but the second pass replaces it with identical text.) -/
theorem red_idempotent (s : List Char) : red (red s) = red s :=
  red_idem_aux s
